import Mathlib

/-!
# The generational engine of `ga/algorithm.hpp`

A shallow embedding of the class template `ga::algorithm<T>`:

* the problem type `T` becomes a record `Problem` of its three operations and
  of the fitness comparison; every operation receives the generator state and
  returns the new one, together with either a value or the exception raised;
* the two standard-library components the engine calls
  (`std::uniform_int_distribution<std::size_t>` and `std::sort`) are the
  fields of a record `StdLib`, which carries the guarantees the C++ standard
  gives for them and nothing more;
* the object state (`population_`, `next_population_`, `elite_count_`,
  `generator_`) is the record `algorithm`;
* the constructor is `construct`, the member `iterate()` is `iterate`; the
  `while` loop of `iterate()` is `breed` (with a bound on the number of
  rounds, because the loop need not end) and its inner `for` loop is
  `breed_children`;
* to count calls and to see their order the engine is run on a recording
  problem (`spy`), whose generator carries the list of the calls made;
* the traits of `ga/meta.hpp` that make up the concept `meta::Problem` are
  Boolean functions of what they test on a problem type (`meta.problem_type`).
-/

namespace ga

/-- The `solution_type` of the engine: an individual and its fitness. -/
structure solution_type (I F : Type) where
  x : I
  fitness : F
  deriving DecidableEq, Repr

/-- The operations of the problem type `T`.  `G` is the generator state and
`E` the type of the exceptions an operation may raise.  Each operation is
given the generator by reference: it returns the generator state it leaves
behind, also when it raises. -/
structure Problem (I F G E : Type) where
  /-- The comparison `operator<` of `fitness_type`. -/
  lt : F → F → Bool
  /-- The call `mutate(child, generator)`: the individual after the in-place change. -/
  mutate : I → G → Except E I × G
  /-- The call `recombine(parent1, parent2, generator)`: the children, in iteration order. -/
  recombine : I → I → G → Except E (List I) × G
  /-- The call `evaluate(x, generator)`. -/
  evaluate : I → G → Except E F × G

/-- A strict weak ordering, as the C++ standard asks of a comparison handed to
`std::sort`: irreflexive, transitive, with a transitive incomparability. -/
structure StrictWeakOrder {α : Type} (lt : α → α → Bool) : Prop where
  irrefl : ∀ a, lt a a = false
  trans : ∀ a b c, lt a b = true → lt b c = true → lt a c = true
  incomp_trans : ∀ a b c, lt a b = false → lt b a = false → lt b c = false → lt c b = false →
    lt a c = false ∧ lt c a = false

/-- The comparison lambda of `sort_population`: `a.fitness < b.fitness`. -/
def fitness_less {I F : Type} (lt : F → F → Bool) (a b : solution_type I F) : Bool :=
  lt a.fitness b.fitness

/-- A list is in ascending order for `lt` when no later element is `lt` an earlier one. -/
def Ascending {α : Type} (lt : α → α → Bool) (l : List α) : Prop :=
  l.Pairwise (fun a b => lt b a = false)

/-- The standard-library components used by the engine.

* `uniform hi g` is one call `std::uniform_int_distribution<std::size_t>(0, hi)(g)`:
  the drawn value and the generator state after the draw; the value lies in `[0, hi]`.
* `sort cmp l` is `std::sort` over the whole vector with comparison `cmp`: the result is a
  rearrangement of `l`, and it is in ascending order when `cmp` is a strict weak ordering.
  Nothing is assumed about the relative order of equivalent elements. -/
structure StdLib (I F G : Type) where
  uniform : Nat → G → Nat × G
  uniform_le : ∀ hi g, (uniform hi g).1 ≤ hi
  sort : (solution_type I F → solution_type I F → Bool) →
    List (solution_type I F) → List (solution_type I F)
  sort_perm : ∀ cmp l, (sort cmp l).Perm l
  sort_sorted : ∀ cmp l, StrictWeakOrder cmp → Ascending cmp (sort cmp l)

/-- The state of an `algorithm<T>` object (the problem itself is a parameter
of the operations below). -/
structure algorithm (I F G : Type) where
  population_ : List (solution_type I F)
  next_population_ : List (solution_type I F)
  elite_count_ : Nat
  generator_ : G

/-- The accessor `population()`. -/
def algorithm.population {I F G : Type} (s : algorithm I F G) : List (solution_type I F) :=
  s.population_

/-- The accessor `elite_count()`. -/
def algorithm.elite_count {I F G : Type} (s : algorithm I F G) : Nat :=
  s.elite_count_

/-- The accessor `generator()`. -/
def algorithm.generator {I F G : Type} (s : algorithm I F G) : G :=
  s.generator_

/-- Subtraction of two `std::size_t` values (64 bits): it wraps around when
the second operand is the larger one. -/
def size_sub (a b : Nat) : Nat :=
  if b ≤ a then a - b else 2 ^ 64 - (b - a)

/-- How a constructor call can fail: the `std::runtime_error` thrown by the
constructor itself, or an exception of the problem passing through. -/
inductive construct_error (E : Type) where
  | configuration : construct_error E
  | plugin (e : E) : construct_error E
  deriving DecidableEq, Repr

/-- How a call of `iterate()` can end: it returns normally (`completed`), an
exception of the problem passes through it and leaves the object in the given
state (`raised`), it runs into undefined behaviour (an index or a write
outside a vector), or the bound on the number of rounds of the breeding loop
is used up before the loop ends (`exhausted`). -/
inductive Outcome (E σ : Type) where
  | completed (s : σ) : Outcome E σ
  | raised (e : E) (s : σ) : Outcome E σ
  | undefined : Outcome E σ
  | exhausted : Outcome E σ
  deriving DecidableEq, Repr

section engine

variable {I F G E : Type}

/-- The member `sort_population()`, applied to the population vector. -/
def sort_population (P : Problem I F G E) (L : StdLib I F G)
    (population : List (solution_type I F)) : List (solution_type I F) :=
  L.sort (fitness_less P.lt) population

/-- The `std::transform` of the constructor: the individuals are evaluated
from the first to the last, each evaluation receiving the generator left by
the one before, and each gives the solution `{x, fitness}`.  The first
exception ends the pass. -/
def evaluate_all (P : Problem I F G E) :
    List I → G → Except E (List (solution_type I F)) × G
  | [], g => (.ok [], g)
  | x :: xs, g =>
    match P.evaluate x g with
    | (.error e, g1) => (.error e, g1)
    | (.ok fitness, g1) =>
      match evaluate_all P xs g1 with
      | (.error e, g2) => (.error e, g2)
      | (.ok sols, g2) => (.ok (solution_type.mk x fitness :: sols), g2)

/-- The constructor `algorithm(problem, population, elite_count, generator)`. -/
def construct (P : Problem I F G E) (L : StdLib I F G) (population : List I)
    (elite_count : Nat) (generator : G) : Except (construct_error E) (algorithm I F G) :=
  if elite_count ≥ population.length then
    .error .configuration
  else
    match evaluate_all P population generator with
    | (.error e, _) => .error (.plugin e)
    | (.ok sols, g) =>
      .ok { population_ := sort_population P L sols
            next_population_ := []
            elite_count_ := elite_count
            generator_ := g }

/-- The lambda `binary_tournament` of `iterate()`: two draws from
`uniform_int_distribution(0, population_.size() - 1)`, then the individual at
the first index when its fitness is `<` the fitness at the second index, and
the individual at the second index otherwise.  The result is `none` when a
drawn index is not a position of the vector. -/
def binary_tournament (P : Problem I F G E) (L : StdLib I F G)
    (population : List (solution_type I F)) (g : G) : Option I × G :=
  let hi := size_sub population.length 1
  let d1 := L.uniform hi g
  let d2 := L.uniform hi d1.2
  match population[d1.1]?, population[d2.1]? with
  | some a, some b => (some (if P.lt a.fitness b.fitness then a.x else b.x), d2.2)
  | _, _ => (none, d2.2)

/-- The `for` loop over the children of one recombination: each child is
mutated, evaluated and appended to the scratch vector, and the loop is left
as soon as the scratch vector has `target` elements.  The result is the
exception raised, if any, with the scratch vector and the generator as the
loop leaves them. -/
def breed_children (P : Problem I F G E) (target : Nat) :
    List I → List (solution_type I F) → G → Option E × List (solution_type I F) × G
  | [], next, g => (none, next, g)
  | child :: rest, next, g =>
    match P.mutate child g with
    | (.error e, g1) => (some e, next, g1)
    | (.ok child1, g1) =>
      match P.evaluate child1 g1 with
      | (.error e, g2) => (some e, next, g2)
      | (.ok fitness, g2) =>
        if (next ++ [solution_type.mk child1 fitness]).length = target then
          (none, next ++ [solution_type.mk child1 fitness], g2)
        else
          breed_children P target rest (next ++ [solution_type.mk child1 fitness]) g2

/-- The `while` loop of `iterate()`, run for at most `fuel` rounds: while the
scratch vector has fewer than `target` elements, select two parents,
recombine them and breed the children.  The outcome is `exhausted` when the
loop condition still holds and no round is left. -/
def breed (P : Problem I F G E) (L : StdLib I F G) (population : List (solution_type I F))
    (target : Nat) : Nat → List (solution_type I F) → G →
    Outcome E (List (solution_type I F) × G)
  | 0, next, g =>
    if next.length < target then .exhausted else .completed (next, g)
  | fuel + 1, next, g =>
    if next.length < target then
      match binary_tournament P L population g with
      | (none, _) => .undefined
      | (some parent1, g1) =>
        match binary_tournament P L population g1 with
        | (none, _) => .undefined
        | (some parent2, g2) =>
          match P.recombine parent1 parent2 g2 with
          | (.error e, g3) => .raised e (next, g3)
          | (.ok children, g3) =>
            match breed_children P target children next g3 with
            | (some e, next1, g4) => .raised e (next1, g4)
            | (none, next1, g4) => breed P L population target fuel next1 g4
    else
      .completed (next, g)

/-- The `std::move(next.begin(), next.end(), population_.begin() + elite_count_)`
of `iterate()`: the elements of the scratch vector overwrite the population
from position `elite_count` on.  The result is `none` when the write would
run past the end of the population. -/
def move_into (next population : List (solution_type I F)) (elite_count : Nat) :
    Option (List (solution_type I F)) :=
  if elite_count + next.length ≤ population.length then
    some (population.take elite_count ++ next ++ population.drop (elite_count + next.length))
  else
    none

/-- The member `iterate()`, with at most `fuel` rounds of the breeding loop. -/
def iterate (P : Problem I F G E) (L : StdLib I F G) (fuel : Nat) (s : algorithm I F G) :
    Outcome E (algorithm I F G) :=
  match breed P L s.population_ (size_sub s.population_.length s.elite_count_) fuel
      s.next_population_ s.generator_ with
  | .exhausted => .exhausted
  | .undefined => .undefined
  | .raised e (next, g) =>
    .raised e { population_ := s.population_
                next_population_ := next
                elite_count_ := s.elite_count_
                generator_ := g }
  | .completed (next, g) =>
    match move_into next s.population_ s.elite_count_ with
    | none => .undefined
    | some population =>
      .completed { population_ := sort_population P L population
                   next_population_ := []
                   elite_count_ := s.elite_count_
                   generator_ := g }

/-- The engine states a caller can reach from the constructor call
`algorithm(problem, population, elite_count, generator)`: the state the
constructor leaves, and the state after a completed `iterate()` on a reachable
state. -/
inductive Reachable (P : Problem I F G E) (L : StdLib I F G) (population : List I)
    (elite_count : Nat) (generator : G) : algorithm I F G → Prop where
  | constructed {s : algorithm I F G} :
      construct P L population elite_count generator = .ok s →
      Reachable P L population elite_count generator s
  | iterated {s t : algorithm I F G} (fuel : Nat) :
      Reachable P L population elite_count generator s →
      iterate P L fuel s = .completed t →
      Reachable P L population elite_count generator t

/-- A solution whose fitness is what one evaluation of its individual returned. -/
def Evaluated (P : Problem I F G E) (s : solution_type I F) : Prop :=
  ∃ g g1, P.evaluate s.x g = (.ok s.fitness, g1)

/-- The exception `e` is one that an operation of the problem raises. -/
def Raises (P : Problem I F G E) (e : E) : Prop :=
  (∃ x g g1, P.mutate x g = (.error e, g1)) ∨
  (∃ a b g g1, P.recombine a b g = (.error e, g1)) ∨
  (∃ x g g1, P.evaluate x g = (.error e, g1))

/-- The body of the `for` loop of `iterate()` run over `children` without the
`break`: each child in turn is mutated and then evaluated, every call on the
generator state left by the call before; the solutions made and the generator
state after the last call. -/
inductive BredInOrder (P : Problem I F G E) :
    List I → G → List (solution_type I F) → G → Prop where
  | nil (g : G) : BredInOrder P [] g [] g
  | cons {child child1 : I} {fitness : F} {rest : List I} {g g1 g2 g3 : G}
      {sols : List (solution_type I F)} :
      P.mutate child g = (.ok child1, g1) →
      P.evaluate child1 g1 = (.ok fitness, g2) →
      BredInOrder P rest g2 sols g3 →
      BredInOrder P (child :: rest) g (solution_type.mk child1 fitness :: sols) g3

/-- One round of the breeding loop in the order of the specification, started
on the generator state `g0` with `free` slots left in the scratch vector: the
first and then the second index draw of the tournament for `parent1`, the
first and then the second index draw of the tournament for `parent2`,
`recombine(parent1, parent2)`, and then `mutate` followed by `evaluate` for
each consumed child in turn.  Every call is made on the generator state the
call before left; `sols` are the solutions made and `g6` is the state the
last call leaves. -/
inductive RoundInOrder (P : Problem I F G E) (L : StdLib I F G)
    (population : List (solution_type I F)) (free : Nat) :
    G → List (solution_type I F) → G → Prop where
  | intro {g0 g1 g2 g3 g4 g5 g6 : G} {i1 j1 i2 j2 : Nat} {children : List I}
      {sols : List (solution_type I F)}
      (hi1 : i1 < population.length) (hj1 : j1 < population.length)
      (hi2 : i2 < population.length) (hj2 : j2 < population.length) :
      L.uniform (size_sub population.length 1) g0 = (i1, g1) →
      L.uniform (size_sub population.length 1) g1 = (j1, g2) →
      L.uniform (size_sub population.length 1) g2 = (i2, g3) →
      L.uniform (size_sub population.length 1) g3 = (j2, g4) →
      P.recombine
        (if P.lt population[i1].fitness population[j1].fitness then population[i1].x
          else population[j1].x)
        (if P.lt population[i2].fitness population[j2].fitness then population[i2].x
          else population[j2].x) g4 = (.ok children, g5) →
      BredInOrder P (children.take free) g5 sols g6 →
      RoundInOrder P L population free g0 sols g6

/-- A run of `n` rounds in the order of the specification that takes the
scratch vector `next` and the generator state `g` to the scratch vector
`next1` and the generator state `g1`: a round is made as long as the scratch
vector has fewer than `target` solutions, each round starts on the generator
state the round before left, and the run is over when the scratch vector has
`target` solutions. -/
inductive RoundsInOrder (P : Problem I F G E) (L : StdLib I F G)
    (population : List (solution_type I F)) (target : Nat) :
    List (solution_type I F) → G → List (solution_type I F) → G → Nat → Prop where
  | done {next : List (solution_type I F)} {g : G} :
      ¬ next.length < target →
      RoundsInOrder P L population target next g next g 0
  | round {next sols next1 : List (solution_type I F)} {g g1 g2 : G} {n : Nat} :
      next.length < target →
      RoundInOrder P L population (target - next.length) g sols g1 →
      RoundsInOrder P L population target (next ++ sols) g1 next1 g2 n →
      RoundsInOrder P L population target next g next1 g2 (n + 1)

end engine

/-! ### Recording the calls

To count the calls the engine makes and to see their order, the engine is run
on an instrumented problem: `spy P` behaves like the problem `P`, and
`spy_lib L` like the library `L`, on a generator that carries, next to the
generator state of `P`, the list of the calls made so far. -/

section recording

variable {I F G E : Type}

/-- One recorded call, with what it returned: a draw from the index
distribution with upper bound `hi`, or a call of an operation of the problem. -/
inductive event (I F E : Type) where
  | draw (hi value : Nat) : event I F E
  | recombine (parent1 parent2 : I) (result : Except E (List I)) : event I F E
  | mutate (child : I) (result : Except E I) : event I F E
  | evaluate (x : I) (result : Except E F) : event I F E

/-- The problem `P`, recording every call of its operations. -/
def spy (P : Problem I F G E) : Problem I F (G × List (event I F E)) E where
  lt := P.lt
  mutate := fun child gl =>
    ((P.mutate child gl.1).1,
      ((P.mutate child gl.1).2, gl.2 ++ [event.mutate child (P.mutate child gl.1).1]))
  recombine := fun parent1 parent2 gl =>
    ((P.recombine parent1 parent2 gl.1).1,
      ((P.recombine parent1 parent2 gl.1).2,
        gl.2 ++ [event.recombine parent1 parent2 (P.recombine parent1 parent2 gl.1).1]))
  evaluate := fun x gl =>
    ((P.evaluate x gl.1).1,
      ((P.evaluate x gl.1).2, gl.2 ++ [event.evaluate x (P.evaluate x gl.1).1]))

/-- The library `L`, recording every draw. -/
def spy_lib (E : Type) (L : StdLib I F G) : StdLib I F (G × List (event I F E)) where
  uniform := fun hi gl =>
    ((L.uniform hi gl.1).1,
      ((L.uniform hi gl.1).2, gl.2 ++ [event.draw hi (L.uniform hi gl.1).1]))
  uniform_le := fun hi gl => L.uniform_le hi gl.1
  sort := L.sort
  sort_perm := L.sort_perm
  sort_sorted := L.sort_sorted

/-- The number of draws in a record. -/
def draws (log : List (event I F E)) : Nat :=
  log.countP (fun ev => match ev with
    | .draw _ _ => true
    | _ => false)

/-- The number of calls of `recombine` in a record. -/
def recombine_calls (log : List (event I F E)) : Nat :=
  log.countP (fun ev => match ev with
    | .recombine _ _ _ => true
    | _ => false)

/-- The number of calls of `mutate` in a record. -/
def mutate_calls (log : List (event I F E)) : Nat :=
  log.countP (fun ev => match ev with
    | .mutate _ _ => true
    | _ => false)

/-- The number of calls of `evaluate` in a record. -/
def evaluate_calls (log : List (event I F E)) : Nat :=
  log.countP (fun ev => match ev with
    | .evaluate _ _ => true
    | _ => false)

/-- The sequences of children the calls of `recombine` returned, call by call. -/
def recombine_outputs (log : List (event I F E)) : List (List I) :=
  log.filterMap (fun ev => match ev with
    | .recombine _ _ (.ok children) => some children
    | _ => none)

/-- The children handed to `mutate`, call by call. -/
def mutate_inputs (log : List (event I F E)) : List I :=
  log.filterMap (fun ev => match ev with
    | .mutate child _ => some child
    | _ => none)

/-- The individuals the calls of `mutate` left, call by call. -/
def mutate_outputs (log : List (event I F E)) : List I :=
  log.filterMap (fun ev => match ev with
    | .mutate _ (.ok child1) => some child1
    | _ => none)

/-- The individuals handed to `evaluate`, call by call. -/
def evaluate_inputs (log : List (event I F E)) : List I :=
  log.filterMap (fun ev => match ev with
    | .evaluate x _ => some x
    | _ => none)

/-- The result of a call with the state it carries changed by `f`. -/
def Outcome.map {σ τ : Type} (f : σ → τ) : Outcome E σ → Outcome E τ
  | .completed s => .completed (f s)
  | .raised e s => .raised e (f s)
  | .undefined => .undefined
  | .exhausted => .exhausted

/-- The engine state without the record of the calls. -/
def forget (s : algorithm I F (G × List (event I F E))) : algorithm I F G where
  population_ := s.population_
  next_population_ := s.next_population_
  elite_count_ := s.elite_count_
  generator_ := s.generator_.1

end recording

/-! ### Concrete instances, for the scenario of the specification and for examples -/

section instances

/-- An insertion sort, as one admissible behaviour of `std::sort`. -/
def insertion_sort {α : Type} (cmp : α → α → Bool) (l : List α) : List α :=
  l.insertionSort (fun a b => cmp b a = false)

/-- The test generator of the scenario: its state is the number of draws made
so far, and its draws are `0, 2, 1, 0, 2, 1, ...` (cut down to the upper bound
of the distribution). -/
def cyclic_uniform (hi : Nat) (g : Nat) : Nat × Nat :=
  (min ([0, 2, 1].getD (g % 3) 0) hi, g + 1)

/-- The standard library of the scenario: the cyclic test generator and an insertion sort. -/
def cyclic_lib (I F : Type) : StdLib I F Nat where
  uniform := cyclic_uniform
  uniform_le := fun hi g => Nat.min_le_right _ hi
  sort := insertion_sort
  sort_perm := fun cmp l => List.perm_insertionSort (fun a b => cmp b a = false) l
  sort_sorted := fun cmp l h => by
    haveI : IsTotal (solution_type I F) (fun a b => cmp b a = false) :=
      ⟨fun a b => by
        cases hba : cmp b a
        · exact Or.inl rfl
        · right
          cases hab : cmp a b
          · rfl
          · have := h.trans a b a hab hba
            rw [h.irrefl] at this
            exact absurd this (by decide)⟩
    haveI : IsTrans (solution_type I F) (fun a b => cmp b a = false) :=
      ⟨fun a b c hab hbc => by
        show cmp c a = false
        have hab : cmp b a = false := hab
        have hbc : cmp c b = false := hbc
        cases hca : cmp c a
        · rfl
        · exfalso
          cases hcb2 : cmp b c
          · cases hab2 : cmp a b
            · have := (h.incomp_trans a b c hab2 hab hcb2 hbc).2
              rw [hca] at this
              exact absurd this (by decide)
            · have := h.trans c a b hca hab2
              rw [hbc] at this
              exact absurd this (by decide)
          · have := h.trans b c a hcb2 hca
            rw [hab] at this
            exact absurd this (by decide)⟩
    exact List.sorted_insertionSort (fun a b => cmp b a = false) l

/-- The stub problem of the scenario: individuals and fitnesses are integers,
`evaluate` is the identity, `mutate` changes nothing, `recombine(p1, p2)` is
the one child `min(p1, p2)`; no operation uses the generator or raises. -/
def stub_problem : Problem Int Int Nat Unit where
  lt := fun a b => decide (a < b)
  mutate := fun x g => (.ok x, g)
  recombine := fun p1 p2 g => (.ok [min p1 p2], g)
  evaluate := fun x g => (.ok x, g)

/-- A problem like the stub problem, except that `recombine` never returns a child. -/
def barren_problem : Problem Int Int Nat Unit where
  lt := fun a b => decide (a < b)
  mutate := fun x g => (.ok x, g)
  recombine := fun _ _ g => (.ok [], g)
  evaluate := fun x g => (.ok x, g)

/-- The state the scenario reaches by constructing the engine from `[9, 4, 7]`
with one elite, under the stub problem and the cyclic generator. -/
def scenario_initial : algorithm Int Int Nat where
  population_ := [⟨4, 4⟩, ⟨7, 7⟩, ⟨9, 9⟩]
  next_population_ := []
  elite_count_ := 1
  generator_ := 0

/-- The state of the scenario after one `iterate()`: eight draws were made. -/
def scenario_next : algorithm Int Int Nat where
  population_ := [⟨4, 4⟩, ⟨4, 4⟩, ⟨4, 4⟩]
  next_population_ := []
  elite_count_ := 1
  generator_ := 8

/-- A problem like the stub problem, except that `mutate` raises once the
generator has made six draws or more. -/
def faulty_problem : Problem Int Int Nat Unit where
  lt := fun a b => decide (a < b)
  mutate := fun x g => if g < 6 then (.ok x, g) else (.error (), g)
  recombine := fun p1 p2 g => (.ok [min p1 p2], g)
  evaluate := fun x g => (.ok x, g)

/-- The state in which the `iterate()` of the faulty problem leaves the engine
of the scenario: the population as it was, one bred solution in the scratch vector. -/
def scenario_failed : algorithm Int Int Nat where
  population_ := [⟨4, 4⟩, ⟨7, 7⟩, ⟨9, 9⟩]
  next_population_ := [⟨4, 4⟩]
  elite_count_ := 1
  generator_ := 8

/-- A problem like the stub problem, except that `recombine` returns both
parents as children. -/
def twin_problem : Problem Int Int Nat Unit where
  lt := fun a b => decide (a < b)
  mutate := fun x g => (.ok x, g)
  recombine := fun p1 p2 g => (.ok [p1, p2], g)
  evaluate := fun x g => (.ok x, g)

/-- The recorded engine of the twin problem, built from `[9, 4, 7]` with two
elites: the record holds the three evaluations of the constructor. -/
def twin_initial : algorithm Int Int (Nat × List (event Int Int Unit)) where
  population_ := [⟨4, 4⟩, ⟨7, 7⟩, ⟨9, 9⟩]
  next_population_ := []
  elite_count_ := 2
  generator_ := (0, [.evaluate 9 (.ok 9), .evaluate 4 (.ok 4), .evaluate 7 (.ok 7)])

/-- The recorded engine of the twin problem after one `iterate()`: one round,
whose recombination returned two children for the one free slot. -/
def twin_next : algorithm Int Int (Nat × List (event Int Int Unit)) where
  population_ := [⟨4, 4⟩, ⟨4, 4⟩, ⟨7, 7⟩]
  next_population_ := []
  elite_count_ := 2
  generator_ := (4, [.evaluate 9 (.ok 9), .evaluate 4 (.ok 4), .evaluate 7 (.ok 7),
    .draw 2 0, .draw 2 2, .draw 2 1, .draw 2 0, .recombine 4 4 (.ok [4, 4]),
    .mutate 4 (.ok 4), .evaluate 4 (.ok 4)])

/-- The recorded engine of the scenario after the constructor. -/
def spied_initial : algorithm Int Int (Nat × List (event Int Int Unit)) where
  population_ := [⟨4, 4⟩, ⟨7, 7⟩, ⟨9, 9⟩]
  next_population_ := []
  elite_count_ := 1
  generator_ := (0, [.evaluate 9 (.ok 9), .evaluate 4 (.ok 4), .evaluate 7 (.ok 7)])

/-- The recorded engine of the scenario after one `iterate()`: two rounds. -/
def spied_next : algorithm Int Int (Nat × List (event Int Int Unit)) where
  population_ := [⟨4, 4⟩, ⟨4, 4⟩, ⟨4, 4⟩]
  next_population_ := []
  elite_count_ := 1
  generator_ := (8, [.evaluate 9 (.ok 9), .evaluate 4 (.ok 4), .evaluate 7 (.ok 7),
    .draw 2 0, .draw 2 2, .draw 2 1, .draw 2 0, .recombine 4 4 (.ok [4]),
    .mutate 4 (.ok 4), .evaluate 4 (.ok 4),
    .draw 2 2, .draw 2 1, .draw 2 0, .draw 2 2, .recombine 7 4 (.ok [4]),
    .mutate 4 (.ok 4), .evaluate 4 (.ok 4)])

/-- A problem whose operations all read and change the generator, each in its
own way, and whose `recombine` returns both parents. -/
def scrambling_problem : Problem Int Int Nat Unit where
  lt := fun a b => decide (a < b)
  mutate := fun x g => (.ok (x + g), 2 * g + 1)
  recombine := fun p1 p2 g => (.ok [p1 + g, p2], 3 * g)
  evaluate := fun x g => (.ok (x - g), g + 7)

/-- The engine of the scrambling problem built from `[9, 4, 7]` with no elite:
the three evaluations of the constructor left the generator state 21. -/
def scrambled_initial : algorithm Int Int Nat where
  population_ := [⟨7, -7⟩, ⟨4, -3⟩, ⟨9, 9⟩]
  next_population_ := []
  elite_count_ := 0
  generator_ := 21

/-- The engine of the scrambling problem after one `iterate()`: two rounds, the
second of which consumed the first of its two children only. -/
def scrambled_next : algorithm Int Int Nat where
  population_ := [⟨1319, -650⟩, ⟨165, -152⟩, ⟨107, -44⟩]
  next_population_ := []
  elite_count_ := 0
  generator_ := 1976

end instances

/-! ### The problem concept of `ga/meta.hpp`

The traits of `meta.hpp` are evaluated by the compiler on a problem type `T`.
What they look at is recorded in `problem_type`: for each expression a trait
tests, the type of the expression, or `none` when the expression is
ill-formed for `T`. -/

namespace meta

/-- A C++ type, as far as the traits tell types apart: `void` or another type. -/
inductive cpp_type where
  | void : cpp_type
  | other (id : Nat) : cpp_type
  deriving DecidableEq, Repr

/-- What the traits of `meta.hpp` can see of a problem type `T`. -/
structure problem_type where
  /-- The member type `T::individual_type`. -/
  individual_type : Option cpp_type
  /-- The member type `T::fitness_type`. -/
  fitness_type : Option cpp_type
  /-- The alias `mutate_result<T>`: the type of the call `mutate(individual&, generator&)`. -/
  mutate_result : Option cpp_type
  /-- The alias `recombine_result<T>`. -/
  recombine_result : Option cpp_type
  /-- The value of `Iterable<recombine_result<T>>`. -/
  recombine_iterable : Bool
  /-- The member type `recombine_result<T>::value_type`. -/
  recombine_value_type : Option cpp_type
  /-- The value of `has_comparison<typename T::fitness_type>`. -/
  fitness_comparison : Bool
  /-- The alias `evaluate_result<T>`: the type of the call `evaluate(const individual&, generator&)`. -/
  evaluate_result : Option cpp_type
  /-- The alias `multi_evaluate_result<T>`: the type of the five-argument call `evaluate(...)`. -/
  multi_evaluate_result : Option cpp_type
  deriving DecidableEq, Repr

/-- The template `conjunction<Bs...>`: `true` for no argument, and otherwise
the first false argument, or the last argument when there is none. -/
def conjunction : List Bool → Bool
  | [] => true
  | [b] => b
  | b :: bs => if b then conjunction bs else b

/-- The template `disjunction<Bs...>`: `false` for no argument, and otherwise
the first true argument, or the last argument when there is none. -/
def disjunction : List Bool → Bool
  | [] => false
  | [b] => b
  | b :: bs => if b then b else disjunction bs

/-- The template `compiles<T, Expression>`: whether `Expression<T>` is well-formed. -/
def compiles (expression : Option cpp_type) : Bool :=
  expression.isSome

/-- The trait `std::is_same<A, B>` used in the argument list of a
specialisation: when `A` or `B` is ill-formed the specialisation is dropped,
which counts as `false`. -/
def is_same (a b : Option cpp_type) : Bool :=
  match a, b with
  | some x, some y => decide (x = y)
  | _, _ => false

/-- The trait `SingleEvaluation<T>`. -/
def SingleEvaluation (T : problem_type) : Bool :=
  conjunction [compiles T.evaluate_result, is_same T.fitness_type T.evaluate_result]

/-- The trait `MultiEvaluation<T>`. -/
def MultiEvaluation (T : problem_type) : Bool :=
  conjunction [compiles T.multi_evaluate_result,
    is_same (some cpp_type.void) T.multi_evaluate_result]

/-- The trait `Problem<T>`. -/
def Problem (T : problem_type) : Bool :=
  conjunction [compiles T.mutate_result, is_same T.mutate_result (some cpp_type.void),
    compiles T.recombine_result, T.recombine_iterable,
    is_same T.individual_type T.recombine_value_type, T.fitness_comparison,
    disjunction [SingleEvaluation T, MultiEvaluation T]]

/-- A problem type with the single-mode `evaluate` only. -/
def single_mode_type : problem_type where
  individual_type := some (.other 0)
  fitness_type := some (.other 1)
  mutate_result := some .void
  recombine_result := some (.other 2)
  recombine_iterable := true
  recombine_value_type := some (.other 0)
  fitness_comparison := true
  evaluate_result := some (.other 1)
  multi_evaluate_result := none

/-- A problem type that overloads `evaluate` with both the single-mode and the
batch-mode signature. -/
def both_modes_type : problem_type where
  individual_type := some (.other 0)
  fitness_type := some (.other 1)
  mutate_result := some .void
  recombine_result := some (.other 2)
  recombine_iterable := true
  recombine_value_type := some (.other 0)
  fitness_comparison := true
  evaluate_result := some (.other 1)
  multi_evaluate_result := some .void

end meta

end ga

/-! ## Properties -/

namespace ga

/-! ### Orderings and sorted lists -/

theorem StrictWeakOrder.neg_trans {α : Type} {lt : α → α → Bool} (h : StrictWeakOrder lt)
    {a b c : α} (hab : lt a b = false) (hbc : lt b c = false) : lt a c = false := by
  cases hac : lt a c
  · rfl
  · exfalso
    cases hba : lt b a
    · cases hcb : lt c b
      · have := (h.incomp_trans a b c hab hba hbc hcb).1
        rw [hac] at this
        exact absurd this (by decide)
      · have := h.trans a c b hac hcb
        rw [hab] at this
        exact absurd this (by decide)
    · have := h.trans b a c hba hac
      rw [hbc] at this
      exact absurd this (by decide)

theorem StrictWeakOrder.fitness_less {I F : Type} {lt : F → F → Bool}
    (h : StrictWeakOrder lt) : StrictWeakOrder (fitness_less lt : solution_type I F → _ → Bool) where
  irrefl := fun a => h.irrefl a.fitness
  trans := fun a b c => h.trans a.fitness b.fitness c.fitness
  incomp_trans := fun a b c => h.incomp_trans a.fitness b.fitness c.fitness

/-- In an ascending list the element at a later position is never `lt` the
element at an earlier or equal position. -/
theorem Ascending.getElem_le {α : Type} {lt : α → α → Bool} (h : StrictWeakOrder lt)
    {l : List α} (hl : Ascending lt l) {i j : Nat} (hij : i ≤ j) (hi : i < l.length)
    (hj : j < l.length) : lt l[j] l[i] = false := by
  rcases Nat.eq_or_lt_of_le hij with heq | hlt
  · subst heq
    exact h.irrefl _
  · exact (List.pairwise_iff_getElem.mp hl) i j hi hj hlt

/-- A predicate that fails from position `i` on holds of at most `i` elements. -/
theorem countP_le_of_false_from {α : Type} (q : α → Bool) (A : List α) (i : Nat)
    (hq : ∀ j (hj : j < A.length), i ≤ j → q A[j] = false) : A.countP q ≤ i := by
  have happ : A.countP q = (A.take i).countP q + (A.drop i).countP q := by
    rw [← List.countP_append, List.take_append_drop]
  have h1 : (A.take i).countP q ≤ i :=
    le_trans (List.countP_le_length _) (by rw [List.length_take]; omega)
  have h2 : (A.drop i).countP q = 0 := by
    rw [List.countP_eq_zero]
    intro e he
    obtain ⟨j, hj, rfl⟩ := List.getElem_of_mem he
    rw [List.length_drop] at hj
    rw [List.getElem_drop]
    simp only [Bool.not_eq_true]
    exact hq (i + j) (by omega) (by omega)
  omega

/-- The rank lemma behind elitism: when the first `i + 1` elements of an
ascending list `B` all occur (with multiplicity) in an ascending list `A`,
the element of rank `i` of `A` is not worse than the element of rank `i` of `B`. -/
theorem Ascending.rank_le {α : Type} {lt : α → α → Bool} (h : StrictWeakOrder lt)
    {A B : List α} (hA : Ascending lt A) (hB : Ascending lt B) {i : Nat}
    (hiA : i < A.length) (hiB : i < B.length) (hsub : (B.take (i + 1)).Subperm A) :
    lt B[i] A[i] = false := by
  cases hlt : lt B[i] A[i]
  · rfl
  · exfalso
    have hcB : (B.take (i + 1)).countP (fun e => lt e A[i]) = i + 1 := by
      have : (B.take (i + 1)).countP (fun e => lt e A[i]) = (B.take (i + 1)).length := by
        rw [List.countP_eq_length]
        intro e he
        obtain ⟨j, hj, rfl⟩ := List.getElem_of_mem he
        rw [List.length_take] at hj
        rw [List.getElem_take]
        have hjB : j < B.length := by omega
        have h1 : lt B[i] B[j] = false :=
          Ascending.getElem_le h hB (by omega) hjB hiB
        cases h2 : lt B[j] A[i]
        · have := h.neg_trans h1 h2
          rw [hlt] at this
          exact absurd this (by decide)
        · rfl
      rw [this, List.length_take]
      omega
    have hcA : A.countP (fun e => lt e A[i]) ≤ i :=
      countP_le_of_false_from _ A i
        (fun j hj hij => Ascending.getElem_le h hA hij hiA hj)
    have := hsub.countP_le (fun e => lt e A[i])
    omega

/-! ### The breeding loop -/

section engine_lemmas

variable {I F G E : Type}

theorem breed_children_spec (P : Problem I F G E) (target : Nat) :
    ∀ (children : List I) (next : List (solution_type I F)) (g : G),
      next.length < target →
      ∃ bred, (breed_children P target children next g).2.1 = next ++ bred ∧
        next.length + bred.length ≤ target ∧ bred.length ≤ children.length ∧
        (∀ s ∈ bred, Evaluated P s) ∧
        ((breed_children P target children next g).1 = none → children ≠ [] → bred ≠ []) := by
  intro children
  induction children with
  | nil =>
    intro next g hlt
    exact ⟨[], by simp [breed_children], by simpa using hlt.le, by simp, by simp, by simp⟩
  | cons child rest ih =>
    intro next g hlt
    rcases hm : P.mutate child g with ⟨_ | child1, g1⟩
    · exact ⟨[], by simp [breed_children, hm], by simpa using hlt.le, by simp, by simp,
        by simp [breed_children, hm]⟩
    · rcases he : P.evaluate child1 g1 with ⟨_ | fitness, g2⟩
      · exact ⟨[], by simp [breed_children, hm, he], by simpa using hlt.le, by simp, by simp,
          by simp [breed_children, hm, he]⟩
      · have hev : Evaluated P (solution_type.mk child1 fitness) := ⟨g1, g2, he⟩
        by_cases hfull : (next ++ [solution_type.mk child1 fitness]).length = target
        · refine ⟨[solution_type.mk child1 fitness], by simp [breed_children, hm, he, hfull],
            ?_, by simp, ?_, by simp⟩
          · simp only [List.length_append, List.length_singleton] at hfull
            simp only [List.length_singleton]
            omega
          · intro s hs
            rw [List.mem_singleton] at hs
            exact hs ▸ hev
        · have hlt1 : (next ++ [solution_type.mk child1 fitness]).length < target := by
            simp only [List.length_append, List.length_singleton] at hfull ⊢
            omega
          obtain ⟨bred, hb1, hb2, hb3, hb4, _⟩ := ih (next ++ [solution_type.mk child1 fitness]) g2 hlt1
          refine ⟨solution_type.mk child1 fitness :: bred, ?_, ?_, ?_, ?_, by simp⟩
          · simp only [breed_children, hm, he, hfull, if_false]
            rw [hb1]
            simp
          · simp only [List.length_append, List.length_singleton] at hb2
            simp only [List.length_cons]
            omega
          · simp only [List.length_cons]
            omega
          · intro s hs
            rcases List.mem_cons.mp hs with rfl | hs
            · exact hev
            · exact hb4 s hs

theorem breed_completed (P : Problem I F G E) (L : StdLib I F G)
    (population : List (solution_type I F)) (target : Nat) :
    ∀ (fuel : Nat) (next : List (solution_type I F)) (g : G)
      (next1 : List (solution_type I F)) (g1 : G),
      breed P L population target fuel next g = .completed (next1, g1) →
      next.length ≤ target →
      ∃ bred, next1 = next ++ bred ∧ next1.length = target ∧ ∀ s ∈ bred, Evaluated P s := by
  intro fuel
  induction fuel with
  | zero =>
    intro next g next1 g1 h hle
    by_cases hlt : next.length < target
    · simp [breed, hlt] at h
    · simp only [breed, hlt, if_false, Outcome.completed.injEq, Prod.mk.injEq] at h
      obtain ⟨rfl, rfl⟩ := h
      exact ⟨[], by simp, by omega, by simp⟩
  | succ fuel ih =>
    intro next g next1 g1 h hle
    by_cases hlt : next.length < target
    · simp only [breed, hlt, if_true] at h
      rcases ht1 : binary_tournament P L population g with ⟨_ | parent1, g2⟩
      · simp [ht1] at h
      rcases ht2 : binary_tournament P L population g2 with ⟨_ | parent2, g3⟩
      · simp [ht1, ht2] at h
      rcases hr : P.recombine parent1 parent2 g3 with ⟨_ | children, g4⟩
      · simp [ht1, ht2, hr] at h
      obtain ⟨bred, hb1, hb2, _, hb4, _⟩ := breed_children_spec P target children next g4 hlt
      rcases hc : breed_children P target children next g4 with ⟨_ | e, next2, g5⟩
      · simp only [ht1, ht2, hr, hc] at h
        rw [hc] at hb1
        simp only at hb1
        subst hb1
        obtain ⟨bred2, hc1, hc2, hc3⟩ := ih _ _ _ _ h (by simpa using hb2)
        refine ⟨bred ++ bred2, by simp [hc1], hc2, ?_⟩
        intro s hs
        rcases List.mem_append.mp hs with hs | hs
        · exact hb4 s hs
        · exact hc3 s hs
      · simp [ht1, ht2, hr, hc] at h
    · simp only [breed, hlt, if_false, Outcome.completed.injEq, Prod.mk.injEq] at h
      obtain ⟨rfl, rfl⟩ := h
      exact ⟨[], by simp, by omega, by simp⟩

/-! ### One generation -/

theorem size_sub_of_le {a b : Nat} (h : b ≤ a) : size_sub a b = a - b := by
  simp [size_sub, h]

theorem move_into_full (next population : List (solution_type I F)) (k : Nat)
    (h : k + next.length = population.length) :
    move_into next population k = some (population.take k ++ next) := by
  have hdrop : population.drop (k + next.length) = [] := by
    rw [List.drop_eq_nil_iff]
    omega
  simp [move_into, h, hdrop]

theorem iterate_completed (P : Problem I F G E) (L : StdLib I F G) (fuel : Nat)
    (s t : algorithm I F G) (h : iterate P L fuel s = .completed t)
    (hnext : s.next_population_ = []) (hk : s.elite_count_ < s.population_.length) :
    ∃ scratch g,
      breed P L s.population_ (s.population_.length - s.elite_count_) fuel [] s.generator_
        = .completed (scratch, g) ∧
      scratch.length = s.population_.length - s.elite_count_ ∧
      (∀ x ∈ scratch, Evaluated P x) ∧
      t.population_ = sort_population P L (s.population_.take s.elite_count_ ++ scratch) ∧
      t.next_population_ = [] ∧ t.elite_count_ = s.elite_count_ ∧ t.generator_ = g := by
  unfold iterate at h
  rw [size_sub_of_le hk.le, hnext] at h
  rcases hb : breed P L s.population_ (s.population_.length - s.elite_count_) fuel []
      s.generator_ with ⟨scratch, g⟩ | ⟨e, scratch, g⟩ | _ | _
  · obtain ⟨bred, hb1, hb2, hb3⟩ := breed_completed P L _ _ _ _ _ _ _ hb (by simp)
    simp only [List.nil_append] at hb1
    subst hb1
    rw [hb] at h
    simp only at h
    rw [move_into_full _ _ _ (by omega)] at h
    simp only [Outcome.completed.injEq] at h
    subst h
    exact ⟨scratch, g, rfl, hb2, hb3, rfl, rfl, rfl, rfl⟩
  · simp [hb] at h
  · simp [hb] at h
  · simp [hb] at h

/-! ### The constructor -/

theorem evaluate_all_ok (P : Problem I F G E) :
    ∀ (xs : List I) (g : G) (sols : List (solution_type I F)) (g1 : G),
      evaluate_all P xs g = (.ok sols, g1) →
      sols.length = xs.length ∧ sols.map (fun a => a.x) = xs ∧ ∀ a ∈ sols, Evaluated P a := by
  intro xs
  induction xs with
  | nil =>
    intro g sols g1 h
    simp only [evaluate_all, Prod.mk.injEq, Except.ok.injEq] at h
    obtain ⟨rfl, rfl⟩ := h
    simp
  | cons x xs ih =>
    intro g sols g1 h
    rcases he : P.evaluate x g with ⟨_ | fitness, g2⟩
    · simp [evaluate_all, he] at h
    · rcases hr : evaluate_all P xs g2 with ⟨_ | rest, g3⟩
      · simp [evaluate_all, he, hr] at h
      · simp only [evaluate_all, he, hr, Prod.mk.injEq, Except.ok.injEq] at h
        obtain ⟨rfl, rfl⟩ := h
        obtain ⟨h1, h2, h3⟩ := ih g2 rest g3 hr
        refine ⟨by simp [h1], by simp [h2], ?_⟩
        intro a ha
        rcases List.mem_cons.mp ha with rfl | ha
        · exact ⟨g, g2, he⟩
        · exact h3 a ha

theorem construct_ok (P : Problem I F G E) (L : StdLib I F G) (xs : List I) (k : Nat) (g : G)
    (s : algorithm I F G) (h : construct P L xs k g = .ok s) :
    k < xs.length ∧ ∃ sols g1, evaluate_all P xs g = (.ok sols, g1) ∧
      s.population_ = sort_population P L sols ∧ s.next_population_ = [] ∧
      s.elite_count_ = k ∧ s.generator_ = g1 := by
  unfold construct at h
  by_cases hk : k ≥ xs.length
  · simp [hk] at h
  · rw [if_neg hk] at h
    rcases he : evaluate_all P xs g with ⟨_ | sols, g1⟩
    · simp [he] at h
    · simp only [he, Except.ok.injEq] at h
      subst h
      exact ⟨by omega, sols, g1, rfl, rfl, rfl, rfl, rfl⟩

/-- When the evaluations of `xs`, made in order and each from the generator
state `gs[i]` left by the one before, return the fitnesses `fs`, the pass of
the constructor over `xs` returns the solutions `(xs[i], fs[i])` in order and
leaves the last generator state. -/
theorem evaluate_all_of_chain (P : Problem I F G E) :
    ∀ (xs : List I) (g : G) (fs : List F) (gs : List G),
      fs.length = xs.length → gs.length = xs.length + 1 → gs[0]? = some g →
      (∀ i x, xs[i]? = some x → ∃ f gi gj, fs[i]? = some f ∧ gs[i]? = some gi ∧
        gs[i + 1]? = some gj ∧ P.evaluate x gi = (.ok f, gj)) →
      ∃ g1, gs[xs.length]? = some g1 ∧
        evaluate_all P xs g = (.ok (List.zipWith solution_type.mk xs fs), g1) := by
  intro xs
  induction xs with
  | nil =>
    intro g fs gs hfs hgs h0 _
    have : fs = [] := List.length_eq_zero.mp hfs
    subst this
    exact ⟨g, h0, rfl⟩
  | cons x xs ih =>
    intro g fs gs hfs hgs h0 hchain
    cases fs with
    | nil => simp at hfs
    | cons f fs =>
      cases gs with
      | nil => simp at hgs
      | cons g0 gs =>
        simp only [List.getElem?_cons_zero, Option.some.injEq] at h0
        subst h0
        obtain ⟨f1, gi, gj, hf1, hgi, hgj, hev⟩ := hchain 0 x (by simp)
        simp only [List.getElem?_cons_zero, Option.some.injEq, zero_add,
          List.getElem?_cons_succ] at hf1 hgi hgj
        subst hf1
        subst hgi
        have hrest := ih gj fs gs (by simpa using hfs) (by simpa using hgs) hgj
          (fun i y hy => by
            obtain ⟨f2, ga, gb, h1, h2, h3, h4⟩ := hchain (i + 1) y (by simpa using hy)
            exact ⟨f2, ga, gb, by simpa using h1, by simpa using h2, by simpa using h3, h4⟩)
        obtain ⟨g1, hg1, hall⟩ := hrest
        refine ⟨g1, by simpa using hg1, ?_⟩
        simp [evaluate_all, hev, hall]

/-! ### Invariants of the reachable states -/

theorem Reachable.inv {P : Problem I F G E} {L : StdLib I F G} {xs : List I} {k : Nat} {g : G}
    {s : algorithm I F G} (h : Reachable P L xs k g s) :
    s.next_population_ = [] ∧ s.elite_count_ = k ∧ k < xs.length ∧
      s.population_.length = xs.length ∧ ∀ a ∈ s.population_, Evaluated P a := by
  induction h with
  | constructed hc =>
    obtain ⟨hk, sols, g1, he, hp, hn, hkk, _⟩ := construct_ok P L xs k g _ hc
    obtain ⟨h1, _, h3⟩ := evaluate_all_ok P xs g sols g1 he
    refine ⟨hn, hkk, hk, ?_, ?_⟩
    · rw [hp, sort_population, (L.sort_perm _ _).length_eq, h1]
    · intro a ha
      rw [hp, sort_population] at ha
      exact h3 a ((L.sort_perm _ _).mem_iff.mp ha)
  | iterated fuel _ hi ih =>
    obtain ⟨hn, hkk, hk, hlen, hev⟩ := ih
    obtain ⟨scratch, g1, _, hs1, hs2, hp, hn1, hk1, _⟩ :=
      iterate_completed P L fuel _ _ hi hn (by omega)
    refine ⟨hn1, by omega, hk, ?_, ?_⟩
    · rw [hp, sort_population, (L.sort_perm _ _).length_eq, List.length_append,
        List.length_take, hs1]
      omega
    · intro a ha
      rw [hp, sort_population] at ha
      rcases List.mem_append.mp ((L.sort_perm _ _).mem_iff.mp ha) with ha | ha
      · exact hev a (List.mem_of_mem_take ha)
      · exact hs2 a ha

theorem Reachable.ascending {P : Problem I F G E} {L : StdLib I F G} {xs : List I} {k : Nat}
    {g : G} {s : algorithm I F G} (hswo : StrictWeakOrder P.lt) (h : Reachable P L xs k g s) :
    Ascending (fitness_less P.lt) s.population_ := by
  cases h with
  | constructed hc =>
    obtain ⟨_, sols, g1, _, hp, _⟩ := construct_ok P L xs k g _ hc
    rw [hp]
    exact L.sort_sorted _ _ hswo.fitness_less
  | iterated fuel hr hi =>
    obtain ⟨hn, hkk, hk, hlen, _⟩ := hr.inv
    obtain ⟨scratch, g1, _, _, _, hp, _⟩ := iterate_completed P L fuel _ _ hi hn (by omega)
    rw [hp]
    exact L.sort_sorted _ _ hswo.fitness_less

/-! ### Termination of the breeding loop -/

theorem binary_tournament_some (P : Problem I F G E) (L : StdLib I F G)
    (population : List (solution_type I F)) (g : G) (hne : population ≠ []) :
    ∃ parent g1, binary_tournament P L population g = (some parent, g1) := by
  have hpos : 0 < population.length := List.length_pos.mpr hne
  have hhi : size_sub population.length 1 = population.length - 1 := size_sub_of_le hpos
  have h1 := L.uniform_le (population.length - 1) g
  have h2 := L.uniform_le (population.length - 1) (L.uniform (population.length - 1) g).2
  have hi1 : (L.uniform (population.length - 1) g).1 < population.length := by omega
  have hi2 : (L.uniform (population.length - 1) (L.uniform (population.length - 1) g).2).1
      < population.length := by omega
  simp only [binary_tournament, hhi, List.getElem?_eq_getElem hi1, List.getElem?_eq_getElem hi2]
  exact ⟨_, _, rfl⟩

theorem breed_children_raises (P : Problem I F G E) (target : Nat) :
    ∀ (children : List I) (next : List (solution_type I F)) (g : G) (e : E),
      (breed_children P target children next g).1 = some e → Raises P e := by
  intro children
  induction children with
  | nil =>
    intro next g e h
    simp [breed_children] at h
  | cons child rest ih =>
    intro next g e h
    rcases hm : P.mutate child g with ⟨e1 | child1, g1⟩
    · simp only [breed_children, hm, Option.some.injEq] at h
      subst h
      exact Or.inl ⟨child, g, g1, hm⟩
    · rcases he : P.evaluate child1 g1 with ⟨e1 | fitness, g2⟩
      · simp only [breed_children, hm, he, Option.some.injEq] at h
        subst h
        exact Or.inr (Or.inr ⟨child1, g1, g2, he⟩)
      · by_cases hfull : (next ++ [solution_type.mk child1 fitness]).length = target
        · simp [breed_children, hm, he, hfull] at h
        · simp only [breed_children, hm, he, hfull, if_false] at h
          exact ih _ _ _ h

theorem breed_terminates (P : Problem I F G E) (L : StdLib I F G)
    (population : List (solution_type I F)) (target : Nat) (hpop : population ≠ [])
    (hne : ∀ a b g cs g1, P.recombine a b g = (.ok cs, g1) → cs ≠ []) :
    ∀ (fuel : Nat) (next : List (solution_type I F)) (g : G),
      target - next.length ≤ fuel →
      (∃ r, breed P L population target fuel next g = .completed r) ∨
      (∃ e r, breed P L population target fuel next g = .raised e r ∧ Raises P e) := by
  intro fuel
  induction fuel with
  | zero =>
    intro next g hfuel
    have hlt : ¬ next.length < target := by omega
    exact Or.inl ⟨(next, g), by simp [breed, hlt]⟩
  | succ fuel ih =>
    intro next g hfuel
    by_cases hlt : next.length < target
    · obtain ⟨parent1, g1, ht1⟩ := binary_tournament_some P L population g hpop
      obtain ⟨parent2, g2, ht2⟩ := binary_tournament_some P L population g1 hpop
      rcases hr : P.recombine parent1 parent2 g2 with ⟨e | children, g3⟩
      · exact Or.inr ⟨e, (next, g3), by simp [breed, hlt, ht1, ht2, hr],
          Or.inr (Or.inl ⟨parent1, parent2, g2, g3, hr⟩)⟩
      · obtain ⟨bred, hb1, _, _, _, hb5⟩ := breed_children_spec P target children next g3 hlt
        have hraise := breed_children_raises P target children next g3
        rcases hc : breed_children P target children next g3 with ⟨_ | e, next1, g4⟩
        · rw [hc] at hb1 hb5
          simp only at hb1
          have hbred : bred ≠ [] := hb5 rfl (hne _ _ _ _ _ hr)
          have hpos : 0 < bred.length := List.length_pos.mpr hbred
          have hlen : target - next1.length ≤ fuel := by
            rw [hb1, List.length_append]
            omega
          have hstep : breed P L population target (fuel + 1) next g
              = breed P L population target fuel next1 g4 := by
            simp [breed, hlt, ht1, ht2, hr, hc]
          rw [hstep]
          exact ih next1 g4 hlen
        · refine Or.inr ⟨e, (next1, g4), by simp [breed, hlt, ht1, ht2, hr, hc], ?_⟩
          exact hraise e (by rw [hc])
    · exact Or.inl ⟨(next, g), by simp [breed, hlt]⟩

theorem breed_exhausted_of_barren (P : Problem I F G E) (L : StdLib I F G)
    (population : List (solution_type I F)) (target : Nat) (hpop : population ≠ [])
    (hbarren : ∀ a b g, ∃ g1, P.recombine a b g = (.ok [], g1)) :
    ∀ (fuel : Nat) (next : List (solution_type I F)) (g : G),
      next.length < target → breed P L population target fuel next g = .exhausted := by
  intro fuel
  induction fuel with
  | zero =>
    intro next g hlt
    simp [breed, hlt]
  | succ fuel ih =>
    intro next g hlt
    obtain ⟨parent1, g1, ht1⟩ := binary_tournament_some P L population g hpop
    obtain ⟨parent2, g2, ht2⟩ := binary_tournament_some P L population g1 hpop
    obtain ⟨g3, hr⟩ := hbarren parent1 parent2 g2
    have hstep : breed P L population target (fuel + 1) next g
        = breed P L population target fuel next g3 := by
      simp [breed, hlt, ht1, ht2, hr, breed_children]
    rw [hstep]
    exact ih next g3 hlt

/-- More rounds than needed change nothing: a breeding loop that ends within
`fuel` rounds ends in the same way within `fuel + extra` rounds. -/
theorem breed_completed_mono (P : Problem I F G E) (L : StdLib I F G)
    (population : List (solution_type I F)) (target : Nat) (extra : Nat) :
    ∀ (fuel : Nat) (next : List (solution_type I F)) (g : G)
      (r : List (solution_type I F) × G),
      breed P L population target fuel next g = .completed r →
      breed P L population target (fuel + extra) next g = .completed r := by
  intro fuel
  induction fuel with
  | zero =>
    intro next g r h
    by_cases hlt : next.length < target
    · simp [breed, hlt] at h
    · simp only [breed, hlt, if_false] at h
      cases extra with
      | zero => simpa [breed, hlt] using h
      | succ n => simpa [breed, hlt] using h
  | succ fuel ih =>
    intro next g r h
    rw [Nat.add_right_comm]
    by_cases hlt : next.length < target
    · simp only [breed, hlt, if_true] at h ⊢
      rcases ht1 : binary_tournament P L population g with ⟨_ | parent1, g2⟩
      · simp [ht1] at h
      rcases ht2 : binary_tournament P L population g2 with ⟨_ | parent2, g3⟩
      · simp [ht1, ht2] at h
      rcases hr : P.recombine parent1 parent2 g3 with ⟨_ | children, g4⟩
      · simp [ht1, ht2, hr] at h
      rcases hc : breed_children P target children next g4 with ⟨_ | e, next2, g5⟩
      · simp only [ht1, ht2, hr, hc] at h ⊢
        exact ih _ _ _ h
      · simp [ht1, ht2, hr, hc] at h
    · simpa [breed, hlt] using h

theorem iterate_completed_mono (P : Problem I F G E) (L : StdLib I F G) (fuel extra : Nat)
    (s t : algorithm I F G) (h : iterate P L fuel s = .completed t) :
    iterate P L (fuel + extra) s = .completed t := by
  unfold iterate at h ⊢
  rcases hb : breed P L s.population_ (size_sub s.population_.length s.elite_count_) fuel
      s.next_population_ s.generator_ with ⟨r⟩ | ⟨e, r⟩ | _ | _
  · rw [breed_completed_mono P L _ _ extra _ _ _ _ hb]
    rw [hb] at h
    exact h
  · simp [hb] at h
  · simp [hb] at h
  · simp [hb] at h

/-! ### Repeated generations, draws and failures -/

theorem iterate_completed_unique (P : Problem I F G E) (L : StdLib I F G) (fuel1 fuel2 : Nat)
    (s t1 t2 : algorithm I F G) (h1 : iterate P L fuel1 s = .completed t1)
    (h2 : iterate P L fuel2 s = .completed t2) : t1 = t2 := by
  have e1 := iterate_completed_mono P L fuel1 fuel2 s t1 h1
  have e2 := iterate_completed_mono P L fuel2 fuel1 s t2 h2
  rw [Nat.add_comm fuel2 fuel1, e1] at e2
  exact Outcome.completed.inj e2

/-- On operands that fit in 64 bits, `size_sub` is subtraction modulo `2 ^ 64`. -/
theorem size_sub_eq_mod {a b : Nat} (ha : a < 2 ^ 64) (hb : b < 2 ^ 64) :
    size_sub a b = (a + 2 ^ 64 - b) % 2 ^ 64 := by
  unfold size_sub
  by_cases h : b ≤ a
  · rw [if_pos h]
    have : a + 2 ^ 64 - b = (a - b) + 2 ^ 64 := by omega
    rw [this, Nat.add_mod_right, Nat.mod_eq_of_lt (by omega)]
  · rw [if_neg h]
    have : a + 2 ^ 64 - b = 2 ^ 64 - (b - a) := by omega
    rw [this, Nat.mod_eq_of_lt (by omega)]

theorem binary_tournament_of_draws (P : Problem I F G E) (L : StdLib I F G)
    (population : List (solution_type I F)) (g g1 g2 : G) (i j : Nat)
    (hi : i < population.length) (hj : j < population.length)
    (hd1 : L.uniform (size_sub population.length 1) g = (i, g1))
    (hd2 : L.uniform (size_sub population.length 1) g1 = (j, g2)) :
    binary_tournament P L population g =
      (some (if P.lt population[i].fitness population[j].fitness then population[i].x
        else population[j].x), g2) := by
  simp only [binary_tournament, hd1, hd2, List.getElem?_eq_getElem hi,
    List.getElem?_eq_getElem hj]

theorem breed_raised (P : Problem I F G E) (L : StdLib I F G)
    (population : List (solution_type I F)) (target : Nat) :
    ∀ (fuel : Nat) (next : List (solution_type I F)) (g : G) (e : E)
      (next1 : List (solution_type I F)) (g1 : G),
      breed P L population target fuel next g = .raised e (next1, g1) →
      (∃ ext, next1 = next ++ ext) ∧ Raises P e := by
  intro fuel
  induction fuel with
  | zero =>
    intro next g e next1 g1 h
    by_cases hlt : next.length < target
    · simp [breed, hlt] at h
    · simp [breed, hlt] at h
  | succ fuel ih =>
    intro next g e next1 g1 h
    by_cases hlt : next.length < target
    · simp only [breed, hlt, if_true] at h
      rcases ht1 : binary_tournament P L population g with ⟨_ | parent1, g2⟩
      · simp [ht1] at h
      rcases ht2 : binary_tournament P L population g2 with ⟨_ | parent2, g3⟩
      · simp [ht1, ht2] at h
      rcases hr : P.recombine parent1 parent2 g3 with ⟨e1 | children, g4⟩
      · simp only [ht1, ht2, hr, Outcome.raised.injEq, Prod.mk.injEq] at h
        obtain ⟨rfl, rfl, rfl⟩ := h
        exact ⟨⟨[], by simp⟩, Or.inr (Or.inl ⟨parent1, parent2, g3, g4, hr⟩)⟩
      obtain ⟨bred, hb1, _, _, _, _⟩ := breed_children_spec P target children next g4 hlt
      have hraise := breed_children_raises P target children next g4
      rcases hc : breed_children P target children next g4 with ⟨_ | e1, next2, g5⟩
      · simp only [ht1, ht2, hr, hc] at h
        rw [hc] at hb1
        simp only at hb1
        obtain ⟨⟨ext, hext⟩, hra⟩ := ih _ _ _ _ _ h
        exact ⟨⟨bred ++ ext, by rw [hext, hb1, List.append_assoc]⟩, hra⟩
      · simp only [ht1, ht2, hr, hc, Outcome.raised.injEq, Prod.mk.injEq] at h
        obtain ⟨rfl, rfl, rfl⟩ := h
        rw [hc] at hb1
        simp only at hb1
        exact ⟨⟨bred, hb1⟩, hraise e1 (by rw [hc])⟩
    · simp [breed, hlt] at h

theorem breed_children_of_bred (P : Problem I F G E) (target : Nat) :
    ∀ (children : List I) (next : List (solution_type I F)) (g g1 : G)
      (sols : List (solution_type I F)),
      next.length < target →
      BredInOrder P (children.take (target - next.length)) g sols g1 →
      breed_children P target children next g = (none, next ++ sols, g1) := by
  intro children
  induction children with
  | nil =>
    intro next g g1 sols _ hb
    rw [List.take_nil] at hb
    cases hb
    simp [breed_children]
  | cons child rest ih =>
    intro next g g1 sols hlt hb
    obtain ⟨n, hn⟩ : ∃ n, target - next.length = n + 1 := ⟨target - next.length - 1, by omega⟩
    rw [hn, List.take_succ_cons] at hb
    cases hb with
    | cons hm he hrest =>
      rename_i child1 fitness ga gb sols1
      by_cases hfull : (next ++ [solution_type.mk child1 fitness]).length = target
      · have hn0 : n = 0 := by
          simp only [List.length_append, List.length_singleton] at hfull
          omega
        subst hn0
        rw [List.take_zero] at hrest
        cases hrest
        simp [breed_children, hm, he, hfull]
      · have hlt1 : (next ++ [solution_type.mk child1 fitness]).length < target := by
          simp only [List.length_append, List.length_singleton] at hfull ⊢
          omega
        have hfree : target - (next ++ [solution_type.mk child1 fitness]).length = n := by
          simp only [List.length_append, List.length_singleton]
          omega
        have := ih (next ++ [solution_type.mk child1 fitness]) gb g1 sols1 hlt1
          (by rw [hfree]; exact hrest)
        simp only [breed_children, hm, he, hfull, if_false]
        rw [this, List.append_assoc]
        rfl

/-! ### The record of the calls of a generation -/

theorem mutate_calls_eq_length (log : List (event I F E)) :
    mutate_calls log = (mutate_inputs log).length := by
  induction log with
  | nil => rfl
  | cons ev log ih =>
    cases ev <;>
      simp_all [mutate_calls, mutate_inputs, List.countP_cons, List.filterMap_cons]

theorem evaluate_calls_eq_length (log : List (event I F E)) :
    evaluate_calls log = (evaluate_inputs log).length := by
  induction log with
  | nil => rfl
  | cons ev log ih =>
    cases ev <;>
      simp_all [evaluate_calls, evaluate_inputs, List.countP_cons, List.filterMap_cons]

theorem binary_tournament_log (P : Problem I F G E) (L : StdLib I F G)
    (population : List (solution_type I F)) (g : G) (log : List (event I F E)) :
    ∃ v1 v2,
      (binary_tournament (spy P) (spy_lib E L) population (g, log)).2.2
        = log ++ [event.draw (size_sub population.length 1) v1,
            event.draw (size_sub population.length 1) v2] := by
  refine ⟨(L.uniform (size_sub population.length 1) g).1,
    (L.uniform (size_sub population.length 1) (L.uniform (size_sub population.length 1) g).2).1,
    ?_⟩
  simp only [binary_tournament]
  split <;> simp [spy_lib]

theorem breed_children_log (P : Problem I F G E) (target : Nat) :
    ∀ (children : List I) (next : List (solution_type I F)) (g : G)
      (log : List (event I F E)),
      next.length < target →
      ∃ ev, (breed_children (spy P) target children next (g, log)).2.2.2 = log ++ ev ∧
        draws ev = 0 ∧ recombine_calls ev = 0 ∧ recombine_outputs ev = [] ∧
        ((breed_children (spy P) target children next (g, log)).1 = none →
          mutate_inputs ev = children.take (target - next.length) ∧
          evaluate_inputs ev = mutate_outputs ev ∧
          (breed_children (spy P) target children next (g, log)).2.1.length
            = next.length + min children.length (target - next.length) ∧
          (children ≠ [] → ∃ pre x f, ev = pre ++ [event.evaluate x (.ok f)]) ∧
          (evaluate_inputs ev).length = (mutate_inputs ev).length) := by
  intro children
  induction children with
  | nil =>
    intro next g log _
    exact ⟨[], by simp [breed_children], rfl, rfl, rfl, fun _ =>
      ⟨by simp [mutate_inputs], rfl, by simp [breed_children], fun h => absurd rfl h, rfl⟩⟩
  | cons child rest ih =>
    intro next g log hlt
    rcases hm : P.mutate child g with ⟨e | child1, g1⟩
    · exact ⟨[event.mutate child (.error e)], by simp [breed_children, spy, hm],
        by simp [draws], by simp [recombine_calls], by simp [recombine_outputs],
        by simp [breed_children, spy, hm]⟩
    · rcases he : P.evaluate child1 g1 with ⟨e | fitness, g2⟩
      · exact ⟨[event.mutate child (.ok child1), event.evaluate child1 (.error e)],
          by simp [breed_children, spy, hm, he],
          by simp [draws], by simp [recombine_calls], by simp [recombine_outputs],
          by simp [breed_children, spy, hm, he]⟩
      · by_cases hfull : (next ++ [solution_type.mk child1 fitness]).length = target
        · have hfree : target - next.length = 1 := by
            simp only [List.length_append, List.length_singleton] at hfull
            omega
          refine ⟨[event.mutate child (.ok child1), event.evaluate child1 (.ok fitness)],
            by simp [breed_children, spy, hm, he, hfull],
            by simp [draws], by simp [recombine_calls], by simp [recombine_outputs],
            fun _ => ⟨?_, by simp [evaluate_inputs, mutate_outputs], ?_, fun _ =>
              ⟨[event.mutate child (.ok child1)], child1, fitness, rfl⟩,
              by simp [evaluate_inputs, mutate_inputs]⟩⟩
          · rw [hfree]
            simp [mutate_inputs]
          · rw [hfree]
            simp [breed_children, spy, hm, he, hfull]
            omega
        · have hlt1 : (next ++ [solution_type.mk child1 fitness]).length < target := by
            simp only [List.length_append, List.length_singleton] at hfull ⊢
            omega
          have hstep : breed_children (spy P) target (child :: rest) next (g, log)
              = breed_children (spy P) target rest (next ++ [solution_type.mk child1 fitness])
                  (g2, log ++ [event.mutate child (.ok child1),
                    event.evaluate child1 (.ok fitness)]) := by
            have hfull2 : ¬ next.length + 1 = target := by simpa using hfull
            simp [breed_children, spy, hm, he, hfull2]
          obtain ⟨ev, h1, h2, h3, h4, h5⟩ := ih (next ++ [solution_type.mk child1 fitness]) g2
            (log ++ [event.mutate child (.ok child1), event.evaluate child1 (.ok fitness)])
            hlt1
          rw [hstep]
          refine ⟨[event.mutate child (.ok child1), event.evaluate child1 (.ok fitness)] ++ ev,
            by rw [h1, List.append_assoc], ?_, ?_, ?_, ?_⟩
          · simpa [draws, List.countP_append] using h2
          · simpa [recombine_calls, List.countP_append] using h3
          · simpa [recombine_outputs, List.filterMap_append] using h4
          · intro hnone
            obtain ⟨k1, k2, k3, k4, k5⟩ := h5 hnone
            have hfree : target - next.length
                = (target - (next ++ [solution_type.mk child1 fitness]).length) + 1 := by
              simp only [List.length_append, List.length_singleton] at hlt1 ⊢
              omega
            refine ⟨?_, ?_, ?_, ?_, ?_⟩
            rotate_right
            · have : (evaluate_inputs ev).length = (mutate_inputs ev).length := k5
              simp only [evaluate_inputs, mutate_inputs] at this ⊢
              simp [List.filterMap_append, this]
            · rw [hfree, List.take_succ_cons, ← k1]
              simp [mutate_inputs, List.filterMap_append]
            · have : evaluate_inputs ev = mutate_outputs ev := k2
              simp only [evaluate_inputs, mutate_outputs] at this ⊢
              simp [List.filterMap_append, this]
            · simp only [List.length_append, List.length_singleton, List.length_cons,
                List.length_nil] at k3 hlt1 ⊢
              omega
            · intro _
              by_cases hrest : rest = []
              · subst hrest
                have hev : ev = [] := by
                  have := h1
                  simp only [breed_children] at this
                  exact (List.self_eq_append_right.mp this)
                subst hev
                exact ⟨[event.mutate child (.ok child1)], child1, fitness, rfl⟩
              · obtain ⟨pre, x, f, hpre⟩ := k4 hrest
                exact ⟨[event.mutate child (.ok child1), event.evaluate child1 (.ok fitness)]
                  ++ pre, x, f, by rw [hpre, List.append_assoc]⟩

theorem spy_recombine (P : Problem I F G E) (p1 p2 : I) (g : G) (log : List (event I F E)) :
    (spy P).recombine p1 p2 (g, log)
      = ((P.recombine p1 p2 g).1,
          ((P.recombine p1 p2 g).2, log ++ [event.recombine p1 p2 (P.recombine p1 p2 g).1])) :=
  rfl

/-- One round of the breeding loop on the instrumented problem: unless a drawn
index is out of range, the round records four draws and one call of
`recombine`; it ends the loop with the exception of `recombine` or of a call
on a child, or the loop goes on after the children. -/
theorem breed_spy_round (P : Problem I F G E) (L : StdLib I F G)
    (population : List (solution_type I F)) (target fuel : Nat)
    (next : List (solution_type I F)) (g : G) (log : List (event I F E))
    (hlt : next.length < target) :
    breed (spy P) (spy_lib E L) population target (fuel + 1) next (g, log) = .undefined ∨
    (∃ v1 v2 v3 v4 p1 p2 e g0 g1, P.recombine p1 p2 g0 = (.error e, g1) ∧
      breed (spy P) (spy_lib E L) population target (fuel + 1) next (g, log)
        = .raised e (next, (g1, log ++ [event.draw (size_sub population.length 1) v1,
            event.draw (size_sub population.length 1) v2,
            event.draw (size_sub population.length 1) v3,
            event.draw (size_sub population.length 1) v4,
            event.recombine p1 p2 (.error e)]))) ∨
    (∃ v1 v2 v3 v4 p1 p2 cs g0 g1 e next1 gl, P.recombine p1 p2 g0 = (.ok cs, g1) ∧
      breed_children (spy P) target cs next
        (g1, log ++ [event.draw (size_sub population.length 1) v1,
          event.draw (size_sub population.length 1) v2,
          event.draw (size_sub population.length 1) v3,
          event.draw (size_sub population.length 1) v4,
          event.recombine p1 p2 (.ok cs)]) = (some e, next1, gl) ∧
      breed (spy P) (spy_lib E L) population target (fuel + 1) next (g, log)
        = .raised e (next1, gl)) ∨
    (∃ v1 v2 v3 v4 p1 p2 cs g0 g1 next1 gl, P.recombine p1 p2 g0 = (.ok cs, g1) ∧
      breed_children (spy P) target cs next
        (g1, log ++ [event.draw (size_sub population.length 1) v1,
          event.draw (size_sub population.length 1) v2,
          event.draw (size_sub population.length 1) v3,
          event.draw (size_sub population.length 1) v4,
          event.recombine p1 p2 (.ok cs)]) = (none, next1, gl) ∧
      breed (spy P) (spy_lib E L) population target (fuel + 1) next (g, log)
        = breed (spy P) (spy_lib E L) population target fuel next1 gl) := by
  obtain ⟨v1, v2, hlog1⟩ := binary_tournament_log P L population g log
  rcases ht1 : binary_tournament (spy P) (spy_lib E L) population (g, log)
    with ⟨_ | p1, ga, log1⟩
  · exact Or.inl (by simp [breed, hlt, ht1])
  rw [ht1] at hlog1
  simp only at hlog1
  subst hlog1
  obtain ⟨v3, v4, hlog2⟩ := binary_tournament_log P L population ga
    (log ++ [event.draw (size_sub population.length 1) v1,
      event.draw (size_sub population.length 1) v2])
  rcases ht2 : binary_tournament (spy P) (spy_lib E L) population
    (ga, log ++ [event.draw (size_sub population.length 1) v1,
      event.draw (size_sub population.length 1) v2]) with ⟨_ | p2, gb, log2⟩
  · exact Or.inl (by simp [breed, hlt, ht1, ht2])
  rw [ht2] at hlog2
  simp only [List.append_assoc, List.cons_append, List.nil_append] at hlog2
  subst hlog2
  rcases hr : P.recombine p1 p2 gb with ⟨e | cs, gc⟩
  · refine Or.inr (Or.inl ⟨v1, v2, v3, v4, p1, p2, e, gb, gc, hr, ?_⟩)
    simp [breed, hlt, ht1, ht2, spy_recombine, hr]
  · rcases hc : breed_children (spy P) target cs next
        (gc, log ++ [event.draw (size_sub population.length 1) v1,
          event.draw (size_sub population.length 1) v2,
          event.draw (size_sub population.length 1) v3,
          event.draw (size_sub population.length 1) v4,
          event.recombine p1 p2 (.ok cs)]) with ⟨_ | e, next1, gl⟩
    · refine Or.inr (Or.inr (Or.inr
        ⟨v1, v2, v3, v4, p1, p2, cs, gb, gc, next1, gl, hr, hc, ?_⟩))
      simp [breed, hlt, ht1, ht2, spy_recombine, hr, hc]
    · refine Or.inr (Or.inr (Or.inl
        ⟨v1, v2, v3, v4, p1, p2, cs, gb, gc, e, next1, gl, hr, hc, ?_⟩))
      simp [breed, hlt, ht1, ht2, spy_recombine, hr, hc]

/-- The counts and lists of a record that starts with the four draws and the
call of `recombine` of a round. -/
theorem round_record (hi v1 v2 v3 v4 : Nat) (p1 p2 : I) (r : Except E (List I))
    (evc ev : List (event I F E)) :
    draws ([event.draw hi v1, event.draw hi v2, event.draw hi v3, event.draw hi v4,
        event.recombine p1 p2 r] ++ evc ++ ev) = 4 + draws evc + draws ev ∧
    recombine_calls ([event.draw hi v1, event.draw hi v2, event.draw hi v3, event.draw hi v4,
        event.recombine p1 p2 r] ++ evc ++ ev) = 1 + recombine_calls evc + recombine_calls ev ∧
    mutate_inputs ([event.draw hi v1, event.draw hi v2, event.draw hi v3, event.draw hi v4,
        event.recombine p1 p2 r] ++ evc ++ ev) = mutate_inputs evc ++ mutate_inputs ev ∧
    mutate_outputs ([event.draw hi v1, event.draw hi v2, event.draw hi v3, event.draw hi v4,
        event.recombine p1 p2 r] ++ evc ++ ev) = mutate_outputs evc ++ mutate_outputs ev ∧
    evaluate_inputs ([event.draw hi v1, event.draw hi v2, event.draw hi v3, event.draw hi v4,
        event.recombine p1 p2 r] ++ evc ++ ev) = evaluate_inputs evc ++ evaluate_inputs ev := by
  refine ⟨?_, ?_, ?_, ?_, ?_⟩
  · simp [draws, List.countP_append, List.countP_cons]
    omega
  · simp [recombine_calls, List.countP_append, List.countP_cons]
    omega
  · simp [mutate_inputs, List.filterMap_append, List.filterMap_cons]
  · simp [mutate_outputs, List.filterMap_append, List.filterMap_cons]
  · simp [evaluate_inputs, List.filterMap_append, List.filterMap_cons]

theorem round_record_outputs (hi v1 v2 v3 v4 : Nat) (p1 p2 : I) (cs : List I)
    (evc ev : List (event I F E)) :
    recombine_outputs ([event.draw hi v1, event.draw hi v2, event.draw hi v3,
        event.draw hi v4, event.recombine p1 p2 (.ok cs)] ++ evc ++ ev)
      = cs :: (recombine_outputs evc ++ recombine_outputs ev) := by
  simp [recombine_outputs, List.filterMap_append, List.filterMap_cons]

theorem breed_of_not_lt (P : Problem I F G E) (L : StdLib I F G)
    (population : List (solution_type I F)) (target fuel : Nat)
    (next : List (solution_type I F)) (g : G) (h : ¬ next.length < target) :
    breed P L population target fuel next g = .completed (next, g) := by
  cases fuel <;> simp [breed, h]

/-- The number of rounds that fill `free` slots with `c` children a round:
one round, and the rounds for the slots the round leaves free. -/
theorem ceil_div_step (free c : Nat) (hfree : 1 ≤ free) (hc : 1 ≤ c) :
    (free + c - 1) / c = 1 + (free - min c free + c - 1) / c := by
  have h1 : free + c - 1 = (free - 1) + c := by omega
  rw [h1, Nat.add_div_right _ (by omega)]
  by_cases hle : free ≤ c
  · have h2 : free - min c free + c - 1 = c - 1 := by
      rw [Nat.min_eq_right hle]
      omega
    rw [h2, Nat.div_eq_of_lt (by omega), Nat.div_eq_of_lt (by omega)]
  · have h2 : free - min c free + c - 1 = free - 1 := by
      rw [Nat.min_eq_left (by omega)]
      omega
    rw [h2]
    omega

/-- The record of a breeding loop that ends normally on the instrumented problem. -/
theorem breed_spy_completed (P : Problem I F G E) (L : StdLib I F G)
    (population : List (solution_type I F)) (target : Nat) :
    ∀ (fuel : Nat) (next : List (solution_type I F)) (g : G) (log : List (event I F E))
      (next1 : List (solution_type I F)) (g1 : G) (log1 : List (event I F E)),
      next.length ≤ target →
      breed (spy P) (spy_lib E L) population target fuel next (g, log)
        = .completed (next1, (g1, log1)) →
      ∃ ev, log1 = log ++ ev ∧ draws ev = 4 * recombine_calls ev ∧
        (recombine_outputs ev).length = recombine_calls ev ∧
        mutate_inputs ev = ((recombine_outputs ev).flatten).take (target - next.length) ∧
        evaluate_inputs ev = mutate_outputs ev ∧
        (mutate_inputs ev).length = target - next.length ∧
        (evaluate_inputs ev).length = target - next.length ∧
        (¬ next.length < target → ev = []) ∧
        (next.length < target → ∃ pre x f, ev = pre ++ [event.evaluate x (.ok f)]) ∧
        ((∀ a b g0 cs g2, P.recombine a b g0 = (.ok cs, g2) → cs ≠ []) →
          recombine_calls ev ≤ target - next.length) ∧
        (∀ c, 1 ≤ c → (∀ a b g0 cs g2, P.recombine a b g0 = (.ok cs, g2) → cs.length = c) →
          recombine_calls ev = (target - next.length + c - 1) / c) := by
  have hdone : ∀ (fuel : Nat) (next : List (solution_type I F)) (g : G)
      (log : List (event I F E)) (next1 : List (solution_type I F)) (g1 : G)
      (log1 : List (event I F E)), next.length ≤ target → ¬ next.length < target →
      breed (spy P) (spy_lib E L) population target fuel next (g, log)
        = .completed (next1, (g1, log1)) →
      ∃ ev, log1 = log ++ ev ∧ draws ev = 4 * recombine_calls ev ∧
        (recombine_outputs ev).length = recombine_calls ev ∧
        mutate_inputs ev = ((recombine_outputs ev).flatten).take (target - next.length) ∧
        evaluate_inputs ev = mutate_outputs ev ∧
        (mutate_inputs ev).length = target - next.length ∧
        (evaluate_inputs ev).length = target - next.length ∧
        (¬ next.length < target → ev = []) ∧
        (next.length < target → ∃ pre x f, ev = pre ++ [event.evaluate x (.ok f)]) ∧
        ((∀ a b g0 cs g2, P.recombine a b g0 = (.ok cs, g2) → cs ≠ []) →
          recombine_calls ev ≤ target - next.length) ∧
        (∀ c, 1 ≤ c → (∀ a b g0 cs g2, P.recombine a b g0 = (.ok cs, g2) → cs.length = c) →
          recombine_calls ev = (target - next.length + c - 1) / c) := by
    intro fuel next g log next1 g1 log1 hle hlt h
    rw [breed_of_not_lt _ _ _ _ _ _ _ hlt] at h
    simp only [Outcome.completed.injEq, Prod.mk.injEq] at h
    obtain ⟨_, _, rfl⟩ := h
    have hz : target - next.length = 0 := by omega
    refine ⟨[], by simp, rfl, rfl, by simp [mutate_inputs, recombine_outputs], rfl,
      by simp [mutate_inputs, hz], by simp [evaluate_inputs, hz], fun _ => rfl,
      fun h => absurd h hlt, fun _ => by
        simp [recombine_calls], fun c hc _ => ?_⟩
    rw [hz, Nat.zero_add, Nat.div_eq_of_lt (by omega)]
    rfl
  intro fuel
  induction fuel with
  | zero =>
    intro next g log next1 g1 log1 hle h
    by_cases hlt : next.length < target
    · simp [breed, hlt] at h
    · exact hdone 0 next g log next1 g1 log1 hle hlt h
  | succ fuel ih =>
    intro next g log next1 g1 log1 hle h
    by_cases hlt : next.length < target
    · rcases breed_spy_round P L population target fuel next g log hlt with
        hu | ⟨v1, v2, v3, v4, p1, p2, e, g0, ga, _, hr⟩ |
        ⟨v1, v2, v3, v4, p1, p2, cs, g0, ga, e, next2, gl, _, _, hr⟩ |
        ⟨v1, v2, v3, v4, p1, p2, cs, g0, ga, next2, ⟨gb, log2⟩, hrec, hc, hr⟩
      · rw [hu] at h
        cases h
      · rw [hr] at h
        cases h
      · rw [hr] at h
        cases h
      · rw [hr] at h
        obtain ⟨evc, hc1, hc2, hc3, hc4, hc5⟩ := breed_children_log P target cs next ga
          (log ++ [event.draw (size_sub population.length 1) v1,
            event.draw (size_sub population.length 1) v2,
            event.draw (size_sub population.length 1) v3,
            event.draw (size_sub population.length 1) v4,
            event.recombine p1 p2 (.ok cs)]) hlt
        rw [hc] at hc1 hc5
        simp only at hc1
        obtain ⟨k1, k2, k3, k4, k5⟩ := hc5 rfl
        simp only at k3
        have hle2 : next2.length ≤ target := by omega
        obtain ⟨ev, e1, e2, e3, e4, e5, e6, e6b, e7, e8, e9, e10⟩ :=
          ih next2 gb log2 next1 g1 log1 hle2 h
        obtain ⟨r1, r2, r3, r4, r5⟩ := round_record (size_sub population.length 1) v1 v2 v3 v4
          p1 p2 (Except.ok cs : Except E (List I)) evc ev
        have r6 := round_record_outputs (size_sub population.length 1) v1 v2 v3 v4
          p1 p2 cs evc ev
        refine ⟨[event.draw (size_sub population.length 1) v1,
            event.draw (size_sub population.length 1) v2,
            event.draw (size_sub population.length 1) v3,
            event.draw (size_sub population.length 1) v4,
            event.recombine p1 p2 (.ok cs)] ++ evc ++ ev,
          ?_, ?_, ?_, ?_, ?_, ?_, ?_, ?_, ?_, ?_, ?_⟩
        · rw [e1, hc1]
          simp only [List.append_assoc]
        · rw [r1, r2]
          omega
        · rw [r6, r2, hc4]
          simp only [List.nil_append, List.length_cons]
          omega
        · rw [r3, r6, hc4, k1, e4]
          simp only [List.nil_append, List.flatten_cons]
          rw [List.take_append_eq_append_take]
          congr 2
          omega
        · rw [r5, r4, k2, e5]
        · rw [r3, List.length_append, e6, k1, List.length_take]
          omega
        · rw [r5, List.length_append, e6b, k5, k1, List.length_take]
          omega
        · intro hcon
          exact absurd hlt hcon
        · intro _
          by_cases h2 : next2.length < target
          · obtain ⟨pre2, x, f, hp⟩ := e8 h2
            exact ⟨[event.draw (size_sub population.length 1) v1,
              event.draw (size_sub population.length 1) v2,
              event.draw (size_sub population.length 1) v3,
              event.draw (size_sub population.length 1) v4,
              event.recombine p1 p2 (.ok cs)] ++ evc ++ pre2, x, f, by
                rw [hp]
                simp only [List.append_assoc]⟩
          · have hev := e7 h2
            subst hev
            have hcs : cs ≠ [] := by
              intro h0
              subst h0
              simp only [List.length_nil, Nat.zero_min, Nat.add_zero] at k3
              omega
            obtain ⟨pre2, x, f, hp⟩ := k4 hcs
            exact ⟨[event.draw (size_sub population.length 1) v1,
              event.draw (size_sub population.length 1) v2,
              event.draw (size_sub population.length 1) v3,
              event.draw (size_sub population.length 1) v4,
              event.recombine p1 p2 (.ok cs)] ++ pre2, x, f, by
                rw [hp]
                simp only [List.append_assoc, List.append_nil]⟩
        · intro hne
          have hb := e9 hne
          have hcs : 0 < cs.length := List.length_pos.mpr (hne _ _ _ _ _ hrec)
          rw [r2, hc3]
          omega
        · intro c hc hex
          have hb := e10 c hc hex
          have hcl : cs.length = c := hex _ _ _ _ _ hrec
          rw [r2, hc3, hb, k3, hcl, Nat.sub_add_eq,
            ceil_div_step (target - next.length) c (by omega) hc]
    · exact hdone (fuel + 1) next g log next1 g1 log1 hle hlt h

/-- The record of a breeding loop that an exception ends on the instrumented problem. -/
theorem breed_spy_raised (P : Problem I F G E) (L : StdLib I F G)
    (population : List (solution_type I F)) (target : Nat) :
    ∀ (fuel : Nat) (next : List (solution_type I F)) (g : G) (log : List (event I F E))
      (e : E) (next1 : List (solution_type I F)) (g1 : G) (log1 : List (event I F E)),
      next.length ≤ target →
      breed (spy P) (spy_lib E L) population target fuel next (g, log)
        = .raised e (next1, (g1, log1)) →
      ∃ ev, log1 = log ++ ev ∧ draws ev = 4 * recombine_calls ev ∧
        next1.length ≤ target ∧
        ((∀ a b g0 cs g2, P.recombine a b g0 = (.ok cs, g2) → cs ≠ []) →
          recombine_calls ev ≤ target - next.length) := by
  intro fuel
  induction fuel with
  | zero =>
    intro next g log e next1 g1 log1 _ h
    by_cases hlt : next.length < target
    · simp [breed, hlt] at h
    · simp [breed, hlt] at h
  | succ fuel ih =>
    intro next g log e next1 g1 log1 hle h
    by_cases hlt : next.length < target
    · rcases breed_spy_round P L population target fuel next g log hlt with
        hu | ⟨v1, v2, v3, v4, p1, p2, e1, g0, ga, _, hr⟩ |
        ⟨v1, v2, v3, v4, p1, p2, cs, g0, ga, e1, next2, ⟨gb, log2⟩, _, hc, hr⟩ |
        ⟨v1, v2, v3, v4, p1, p2, cs, g0, ga, next2, ⟨gb, log2⟩, hrec, hc, hr⟩
      · rw [hu] at h
        cases h
      · rw [hr] at h
        simp only [Outcome.raised.injEq, Prod.mk.injEq] at h
        obtain ⟨_, rfl, _, rfl⟩ := h
        obtain ⟨r1, r2, _⟩ := round_record (size_sub population.length 1) v1 v2 v3 v4
          p1 p2 (Except.error e1 : Except E (List I)) ([] : List (event I F E)) []
        refine ⟨[event.draw (size_sub population.length 1) v1,
            event.draw (size_sub population.length 1) v2,
            event.draw (size_sub population.length 1) v3,
            event.draw (size_sub population.length 1) v4,
            event.recombine p1 p2 (.error e1)] ++ [] ++ [], by simp, ?_, hle, fun _ => ?_⟩
        · rw [r1, r2]
          simp [draws, recombine_calls]
        · rw [r2]
          simp only [recombine_calls, List.countP_nil]
          omega
      · rw [hr] at h
        simp only [Outcome.raised.injEq, Prod.mk.injEq] at h
        obtain ⟨_, rfl, _, rfl⟩ := h
        obtain ⟨evc, hc1, hc2, hc3, _, _⟩ := breed_children_log P target cs next ga
          (log ++ [event.draw (size_sub population.length 1) v1,
            event.draw (size_sub population.length 1) v2,
            event.draw (size_sub population.length 1) v3,
            event.draw (size_sub population.length 1) v4,
            event.recombine p1 p2 (.ok cs)]) hlt
        obtain ⟨bred, hb1, hb2, _⟩ := breed_children_spec (spy P) target cs next
          (ga, log ++ [event.draw (size_sub population.length 1) v1,
            event.draw (size_sub population.length 1) v2,
            event.draw (size_sub population.length 1) v3,
            event.draw (size_sub population.length 1) v4,
            event.recombine p1 p2 (.ok cs)]) hlt
        rw [hc] at hc1 hb1
        simp only at hc1 hb1
        obtain ⟨r1, r2, _⟩ := round_record (size_sub population.length 1) v1 v2 v3 v4
          p1 p2 (Except.ok cs : Except E (List I)) evc []
        refine ⟨[event.draw (size_sub population.length 1) v1,
            event.draw (size_sub population.length 1) v2,
            event.draw (size_sub population.length 1) v3,
            event.draw (size_sub population.length 1) v4,
            event.recombine p1 p2 (.ok cs)] ++ evc ++ [], ?_, ?_, ?_, fun _ => ?_⟩
        · rw [hc1]
          simp only [List.append_assoc, List.append_nil]
        · rw [r1, r2, hc2, hc3]
          simp [draws, recombine_calls]
        · rw [hb1, List.length_append]
          exact hb2
        · rw [r2, hc3]
          simp only [recombine_calls, List.countP_nil]
          omega
      · rw [hr] at h
        obtain ⟨evc, hc1, hc2, hc3, _, hc5⟩ := breed_children_log P target cs next ga
          (log ++ [event.draw (size_sub population.length 1) v1,
            event.draw (size_sub population.length 1) v2,
            event.draw (size_sub population.length 1) v3,
            event.draw (size_sub population.length 1) v4,
            event.recombine p1 p2 (.ok cs)]) hlt
        rw [hc] at hc1 hc5
        simp only at hc1
        obtain ⟨_, _, k3, _, _⟩ := hc5 rfl
        simp only at k3
        have hle2 : next2.length ≤ target := by omega
        obtain ⟨ev, e1, e2, e3, e4⟩ := ih next2 gb log2 e next1 g1 log1 hle2 h
        obtain ⟨r1, r2, _⟩ := round_record (size_sub population.length 1) v1 v2 v3 v4
          p1 p2 (Except.ok cs : Except E (List I)) evc ev
        refine ⟨[event.draw (size_sub population.length 1) v1,
            event.draw (size_sub population.length 1) v2,
            event.draw (size_sub population.length 1) v3,
            event.draw (size_sub population.length 1) v4,
            event.recombine p1 p2 (.ok cs)] ++ evc ++ ev, ?_, ?_, e3, fun hne => ?_⟩
        · rw [e1, hc1]
          simp only [List.append_assoc]
        · rw [r1, r2]
          omega
        · have hb := e4 hne
          have hcs : 0 < cs.length := List.length_pos.mpr (hne _ _ _ _ _ hrec)
          rw [r2, hc3]
          omega
    · rw [breed_of_not_lt _ _ _ _ _ _ _ hlt] at h
      cases h

/-- The `for` loop over the children looks only at as many children as there
are free slots in the scratch vector. -/
theorem breed_children_take (P : Problem I F G E) (target : Nat) :
    ∀ (children : List I) (next : List (solution_type I F)) (g : G),
      next.length < target →
      breed_children P target children next g
        = breed_children P target (children.take (target - next.length)) next g := by
  intro children
  induction children with
  | nil =>
    intro next g _
    rw [List.take_nil]
  | cons child rest ih =>
    intro next g hlt
    obtain ⟨n, hn⟩ : ∃ n, target - next.length = n + 1 := ⟨target - next.length - 1, by omega⟩
    rw [hn, List.take_succ_cons]
    rcases hm : P.mutate child g with ⟨e | child1, g1⟩
    · simp [breed_children, hm]
    · rcases he : P.evaluate child1 g1 with ⟨e | fitness, g2⟩
      · simp [breed_children, hm, he]
      · by_cases hfull : (next ++ [solution_type.mk child1 fitness]).length = target
        · simp [breed_children, hm, he, hfull]
        · have hlt1 : (next ++ [solution_type.mk child1 fitness]).length < target := by
            simp only [List.length_append, List.length_singleton] at hfull ⊢
            omega
          have hfree : target - (next ++ [solution_type.mk child1 fitness]).length = n := by
            simp only [List.length_append, List.length_singleton]
            omega
          have := ih (next ++ [solution_type.mk child1 fitness]) g2 hlt1
          rw [hfree] at this
          simp only [breed_children, hm, he, hfull, if_false]
          exact this

theorem iterate_raised (P : Problem I F G E) (L : StdLib I F G) (fuel : Nat)
    (s : algorithm I F G) (e : E) (next : List (solution_type I F)) (g : G)
    (hb : breed P L s.population_ (size_sub s.population_.length s.elite_count_) fuel
      s.next_population_ s.generator_ = .raised e (next, g)) :
    iterate P L fuel s = .raised e (algorithm.mk s.population_ next s.elite_count_ g) := by
  unfold iterate
  rw [hb]

theorem spy_recombine_nonempty (P : Problem I F G E)
    (hne : ∀ a b g0 cs g1, P.recombine a b g0 = (.ok cs, g1) → cs ≠ []) :
    ∀ a b (gl : G × List (event I F E)) cs gl1,
      (spy P).recombine a b gl = (.ok cs, gl1) → cs ≠ [] := by
  intro a b gl cs gl1 h
  obtain ⟨g, log⟩ := gl
  rw [spy_recombine] at h
  simp only [Prod.mk.injEq] at h
  exact hne a b g cs (P.recombine a b g).2 (Prod.ext h.1 rfl)

/-! ### Recording changes nothing else -/

theorem spy_binary_tournament (P : Problem I F G E) (L : StdLib I F G)
    (population : List (solution_type I F)) (g : G) (log : List (event I F E)) :
    binary_tournament P L population g
      = ((binary_tournament (spy P) (spy_lib E L) population (g, log)).1,
          (binary_tournament (spy P) (spy_lib E L) population (g, log)).2.1) := by
  simp only [binary_tournament, spy_lib, spy]
  split <;> rfl

theorem spy_breed_children (P : Problem I F G E) (target : Nat) :
    ∀ (children : List I) (next : List (solution_type I F)) (g : G)
      (log : List (event I F E)),
      breed_children P target children next g
        = ((breed_children (spy P) target children next (g, log)).1,
            (breed_children (spy P) target children next (g, log)).2.1,
            (breed_children (spy P) target children next (g, log)).2.2.1) := by
  intro children
  induction children with
  | nil =>
    intro next g log
    rfl
  | cons child rest ih =>
    intro next g log
    rcases hm : P.mutate child g with ⟨e | child1, g1⟩
    · simp [breed_children, spy, hm]
    · rcases he : P.evaluate child1 g1 with ⟨e | fitness, g2⟩
      · simp [breed_children, spy, hm, he]
      · by_cases hfull : next.length + 1 = target
        · simp [breed_children, spy, hm, he, hfull]
        · have hstep : breed_children (spy P) target (child :: rest) next (g, log)
              = breed_children (spy P) target rest (next ++ [solution_type.mk child1 fitness])
                  (g2, log ++ [event.mutate child (.ok child1),
                    event.evaluate child1 (.ok fitness)]) := by
            simp [breed_children, spy, hm, he, hfull]
          rw [hstep, ← ih]
          simp [breed_children, hm, he, hfull]

theorem spy_breed (P : Problem I F G E) (L : StdLib I F G)
    (population : List (solution_type I F)) (target : Nat) :
    ∀ (fuel : Nat) (next : List (solution_type I F)) (g : G) (log : List (event I F E)),
      breed P L population target fuel next g
        = (breed (spy P) (spy_lib E L) population target fuel next (g, log)).map
            (fun r => (r.1, r.2.1)) := by
  intro fuel
  induction fuel with
  | zero =>
    intro next g log
    by_cases hlt : next.length < target <;> simp [breed, hlt, Outcome.map]
  | succ fuel ih =>
    intro next g log
    by_cases hlt : next.length < target
    · have ht1 := spy_binary_tournament P L population g log
      rcases hs1 : binary_tournament (spy P) (spy_lib E L) population (g, log)
        with ⟨_ | p1, ga, log1⟩
      · rw [hs1] at ht1
        simp [breed, hlt, ht1, hs1, Outcome.map]
      rw [hs1] at ht1
      have ht2 := spy_binary_tournament P L population ga log1
      rcases hs2 : binary_tournament (spy P) (spy_lib E L) population (ga, log1)
        with ⟨_ | p2, gb, log2⟩
      · rw [hs2] at ht2
        simp [breed, hlt, ht1, hs1, ht2, hs2, Outcome.map]
      rw [hs2] at ht2
      rcases hr : P.recombine p1 p2 gb with ⟨e | cs, gc⟩
      · simp [breed, hlt, ht1, hs1, ht2, hs2, spy_recombine, hr, Outcome.map]
      · have hc := spy_breed_children P target cs next gc
          (log2 ++ [event.recombine p1 p2 (.ok cs)])
        rcases hsc : breed_children (spy P) target cs next
            (gc, log2 ++ [event.recombine p1 p2 (.ok cs)]) with ⟨_ | e, next1, gd, log3⟩
        · rw [hsc] at hc
          simp only [breed, hlt, if_true, ht1, hs1, ht2, hs2, spy_recombine, hr, hc, hsc]
          exact ih next1 gd log3
        · rw [hsc] at hc
          simp [breed, hlt, ht1, hs1, ht2, hs2, spy_recombine, hr, hc, hsc, Outcome.map]
    · simp [breed_of_not_lt, hlt, Outcome.map]

/-- Recording changes nothing else: what `iterate()` does to the engine of the
recording problem is, the record left out, what it does to the engine of the
problem itself. -/
theorem spy_iterate (P : Problem I F G E) (L : StdLib I F G) (fuel : Nat)
    (s : algorithm I F (G × List (event I F E))) :
    iterate P L fuel (forget s) = (iterate (spy P) (spy_lib E L) fuel s).map forget := by
  rcases hgs : s.generator_ with ⟨g, log⟩
  have hb := spy_breed P L s.population_ (size_sub s.population_.length s.elite_count_) fuel
    s.next_population_ g log
  unfold iterate
  simp only [forget, hgs]
  rw [hb]
  rcases breed (spy P) (spy_lib E L) s.population_
      (size_sub s.population_.length s.elite_count_) fuel s.next_population_ (g, log)
    with ⟨scratch, g1, log1⟩ | ⟨e, scratch, g1, log1⟩ | _ | _
  · simp only [Outcome.map]
    rcases move_into scratch s.population_ s.elite_count_ with _ | pop
    · rfl
    · rfl
  · rfl
  · rfl
  · rfl

theorem spy_evaluate (P : Problem I F G E) (x : I) (g : G) (log : List (event I F E)) :
    (spy P).evaluate x (g, log)
      = ((P.evaluate x g).1, ((P.evaluate x g).2, log ++ [event.evaluate x (P.evaluate x g).1])) :=
  rfl

theorem spy_evaluate_all (P : Problem I F G E) :
    ∀ (xs : List I) (g : G) (log : List (event I F E)),
      evaluate_all P xs g
        = ((evaluate_all (spy P) xs (g, log)).1, (evaluate_all (spy P) xs (g, log)).2.1) := by
  intro xs
  induction xs with
  | nil =>
    intro g log
    rfl
  | cons x xs ih =>
    intro g log
    rcases he : P.evaluate x g with ⟨e | fitness, g1⟩
    · simp [evaluate_all, spy_evaluate, he]
    · have hrest := ih g1 (log ++ [event.evaluate x (.ok fitness)])
      rcases hs : evaluate_all (spy P) xs (g1, log ++ [event.evaluate x (.ok fitness)])
        with ⟨e | sols, g2, log2⟩
      · rw [hs] at hrest
        simp [evaluate_all, spy_evaluate, he, hrest, hs]
      · rw [hs] at hrest
        simp [evaluate_all, spy_evaluate, he, hrest, hs]

/-- Recording changes nothing else in the constructor either. -/
theorem spy_construct (P : Problem I F G E) (L : StdLib I F G) (xs : List I) (k : Nat)
    (g : G) (log : List (event I F E)) :
    construct P L xs k g = (construct (spy P) (spy_lib E L) xs k (g, log)).map forget := by
  have he := spy_evaluate_all P xs g log
  unfold construct
  by_cases hk : k ≥ xs.length
  · simp only [hk, if_true]
    rfl
  · simp only [hk, if_false]
    rw [he]
    rcases evaluate_all (spy P) xs (g, log) with ⟨e | sols, g1, log1⟩
    · rfl
    · rfl

/-! ### Rounds in the order of the specification -/

theorem breed_round (P : Problem I F G E) (L : StdLib I F G)
    (population : List (solution_type I F)) (target fuel : Nat)
    (next sols : List (solution_type I F)) (g g1 : G)
    (hlt : next.length < target)
    (hround : RoundInOrder P L population (target - next.length) g sols g1) :
    breed P L population target (fuel + 1) next g
      = breed P L population target fuel (next ++ sols) g1 := by
  cases hround with
  | intro hi1 hj1 hi2 hj2 hd1 hd2 hd3 hd4 hrec hbred =>
    have ht1 := binary_tournament_of_draws P L population _ _ _ _ _ hi1 hj1 hd1 hd2
    have ht2 := binary_tournament_of_draws P L population _ _ _ _ _ hi2 hj2 hd3 hd4
    have hc := breed_children_of_bred P target _ next _ _ sols hlt hbred
    simp only [breed, hlt, if_true, ht1, ht2, hrec, hc]

theorem breed_of_rounds (P : Problem I F G E) (L : StdLib I F G)
    (population : List (solution_type I F)) (target : Nat)
    {next next1 : List (solution_type I F)} {g g1 : G} {n : Nat}
    (h : RoundsInOrder P L population target next g next1 g1 n) :
    ∀ fuel, n ≤ fuel → breed P L population target fuel next g = .completed (next1, g1) := by
  induction h with
  | done hlt =>
    intro fuel _
    exact breed_of_not_lt P L population target fuel _ _ hlt
  | round hlt hround _ ih =>
    intro fuel hfuel
    obtain ⟨fuel1, rfl⟩ : ∃ m, fuel = m + 1 := ⟨fuel - 1, by omega⟩
    rw [breed_round P L population target fuel1 _ _ _ _ hlt hround]
    exact ih fuel1 (by omega)

theorem bred_of_breed_children (P : Problem I F G E) (target : Nat) :
    ∀ (children : List I) (next next1 : List (solution_type I F)) (g g1 : G),
      next.length < target →
      breed_children P target children next g = (none, next1, g1) →
      ∃ sols, next1 = next ++ sols ∧
        BredInOrder P (children.take (target - next.length)) g sols g1 := by
  intro children
  induction children with
  | nil =>
    intro next next1 g g1 _ h
    simp only [breed_children, Prod.mk.injEq, true_and] at h
    obtain ⟨rfl, rfl⟩ := h
    exact ⟨[], by simp, by rw [List.take_nil]; exact .nil g⟩
  | cons child rest ih =>
    intro next next1 g g1 hlt h
    obtain ⟨n, hn⟩ : ∃ n, target - next.length = n + 1 := ⟨target - next.length - 1, by omega⟩
    rw [hn, List.take_succ_cons]
    rcases hm : P.mutate child g with ⟨e | child1, ga⟩
    · simp [breed_children, hm] at h
    · rcases he : P.evaluate child1 ga with ⟨e | fitness, gb⟩
      · simp [breed_children, hm, he] at h
      · by_cases hfull : (next ++ [solution_type.mk child1 fitness]).length = target
        · simp only [breed_children, hm, he, hfull, if_true, Prod.mk.injEq, true_and] at h
          obtain ⟨rfl, rfl⟩ := h
          have hn0 : n = 0 := by
            simp only [List.length_append, List.length_singleton] at hfull
            omega
          subst hn0
          exact ⟨[solution_type.mk child1 fitness], rfl,
            .cons hm he (by rw [List.take_zero]; exact .nil gb)⟩
        · have hlt1 : (next ++ [solution_type.mk child1 fitness]).length < target := by
            simp only [List.length_append, List.length_singleton] at hfull ⊢
            omega
          have hfree : target - (next ++ [solution_type.mk child1 fitness]).length = n := by
            simp only [List.length_append, List.length_singleton]
            omega
          simp only [breed_children, hm, he, hfull, if_false] at h
          obtain ⟨sols, hs1, hs2⟩ := ih _ _ _ _ hlt1 h
          rw [hfree] at hs2
          exact ⟨solution_type.mk child1 fitness :: sols, by rw [hs1, List.append_assoc]; rfl,
            .cons hm he hs2⟩

theorem binary_tournament_draws (P : Problem I F G E) (L : StdLib I F G)
    (population : List (solution_type I F)) (g g2 : G) (parent : I)
    (h : binary_tournament P L population g = (some parent, g2)) :
    ∃ (i j : Nat) (g1 : G) (_ : i < population.length) (_ : j < population.length),
      L.uniform (size_sub population.length 1) g = (i, g1) ∧
      L.uniform (size_sub population.length 1) g1 = (j, g2) ∧
      parent = (if P.lt population[i].fitness population[j].fitness then population[i].x
        else population[j].x) := by
  simp only [binary_tournament] at h
  rcases h1 : population[(L.uniform (size_sub population.length 1) g).1]? with _ | a
  · simp [h1] at h
  rcases h2 : population[(L.uniform (size_sub population.length 1)
      (L.uniform (size_sub population.length 1) g).2).1]? with _ | b
  · simp [h1, h2] at h
  simp only [h1, h2, Prod.mk.injEq, Option.some.injEq] at h
  obtain ⟨hi, ha⟩ := List.getElem?_eq_some_iff.mp h1
  obtain ⟨hj, hb⟩ := List.getElem?_eq_some_iff.mp h2
  refine ⟨_, _, _, hi, hj, rfl, Prod.ext rfl h.2, ?_⟩
  rw [ha, hb]
  exact h.1.symm

theorem rounds_of_breed (P : Problem I F G E) (L : StdLib I F G)
    (population : List (solution_type I F)) (target : Nat) :
    ∀ (fuel : Nat) (next next1 : List (solution_type I F)) (g g1 : G),
      breed P L population target fuel next g = .completed (next1, g1) →
      ∃ n, n ≤ fuel ∧ RoundsInOrder P L population target next g next1 g1 n := by
  intro fuel
  induction fuel with
  | zero =>
    intro next next1 g g1 h
    by_cases hlt : next.length < target
    · simp [breed, hlt] at h
    · rw [breed_of_not_lt _ _ _ _ _ _ _ hlt] at h
      simp only [Outcome.completed.injEq, Prod.mk.injEq] at h
      obtain ⟨rfl, rfl⟩ := h
      exact ⟨0, le_rfl, .done hlt⟩
  | succ fuel ih =>
    intro next next1 g g1 h
    by_cases hlt : next.length < target
    · simp only [breed, hlt, if_true] at h
      rcases ht1 : binary_tournament P L population g with ⟨_ | parent1, ga⟩
      · simp [ht1] at h
      rcases ht2 : binary_tournament P L population ga with ⟨_ | parent2, gb⟩
      · simp [ht1, ht2] at h
      rcases hr : P.recombine parent1 parent2 gb with ⟨_ | children, gc⟩
      · simp [ht1, ht2, hr] at h
      rcases hc : breed_children P target children next gc with ⟨_ | e, next2, gd⟩
      · simp only [ht1, ht2, hr, hc] at h
        obtain ⟨sols, hs1, hs2⟩ := bred_of_breed_children P target _ _ _ _ _ hlt hc
        subst hs1
        obtain ⟨n, hn, hrounds⟩ := ih _ _ _ _ h
        obtain ⟨i1, j1, g01, hi1, hj1, hd1, hd2, hp1⟩ :=
          binary_tournament_draws P L population _ _ _ ht1
        obtain ⟨i2, j2, g23, hi2, hj2, hd3, hd4, hp2⟩ :=
          binary_tournament_draws P L population _ _ _ ht2
        rw [hp1, hp2] at hr
        exact ⟨n + 1, by omega,
          .round hlt (.intro hi1 hj1 hi2 hj2 hd1 hd2 hd3 hd4 hr hs2) hrounds⟩
      · simp [ht1, ht2, hr, hc] at h
    · rw [breed_of_not_lt _ _ _ _ _ _ _ hlt] at h
      simp only [Outcome.completed.injEq, Prod.mk.injEq] at h
      obtain ⟨rfl, rfl⟩ := h
      exact ⟨0, Nat.zero_le _, .done hlt⟩

end engine_lemmas

/-! ### The scenario -/

theorem stub_strict_weak_order : StrictWeakOrder stub_problem.lt where
  irrefl := fun a => by simp [stub_problem]
  trans := fun a b c => by
    simp only [stub_problem, decide_eq_true_eq]
    omega
  incomp_trans := fun a b c => by
    simp only [stub_problem, decide_eq_false_iff_not, decide_eq_true_eq]
    omega

theorem scenario_initial_reachable :
    Reachable stub_problem (cyclic_lib Int Int) [9, 4, 7] 1 0 scenario_initial :=
  .constructed rfl

theorem scenario_next_reachable :
    Reachable stub_problem (cyclic_lib Int Int) [9, 4, 7] 1 0 scenario_next :=
  .iterated 2 scenario_initial_reachable rfl

/-! ### The claims -/

section claims

variable {I F G E : Type}

/-- C1, sort invariant: when the fitness comparison is a strict weak ordering,
in every reachable state (after the constructor and after any number of
completed `iterate()` calls) no fitness of `population()` is less than the
fitness just before it. -/
theorem sort_invariant (P : Problem I F G E) (L : StdLib I F G) (xs : List I) (k : Nat) (g : G)
    (s : algorithm I F G) (hswo : StrictWeakOrder P.lt) (hr : Reachable P L xs k g s) :
    ∀ (i : Nat) (h : i + 1 < s.population.length),
      P.lt (s.population[i + 1]).fitness (s.population[i]).fitness = false := by
  intro i h
  exact (List.pairwise_iff_getElem.mp (hr.ascending hswo)) i (i + 1) (Nat.lt_of_succ_lt h) h
    (Nat.lt_succ_self i)

theorem sort_invariant_witness :
    StrictWeakOrder stub_problem.lt ∧
    Reachable stub_problem (cyclic_lib Int Int) [9, 4, 7] 1 0 scenario_next ∧
    ∀ (i : Nat) (h : i + 1 < scenario_next.population.length),
      stub_problem.lt (scenario_next.population[i + 1]).fitness
        (scenario_next.population[i]).fitness = false :=
  ⟨stub_strict_weak_order, scenario_next_reachable,
    sort_invariant stub_problem (cyclic_lib Int Int) [9, 4, 7] 1 0 scenario_next
      stub_strict_weak_order scenario_next_reachable⟩

/-- C2, size invariant: in every state reachable from a construction with the
initial individuals `xs`, that is right after the constructor and after any
number of completed `iterate()` calls, `population()` has as many elements as `xs`. -/
theorem size_invariant (P : Problem I F G E) (L : StdLib I F G) (xs : List I) (k : Nat) (g : G)
    (s : algorithm I F G) (hr : Reachable P L xs k g s) :
    s.population.length = xs.length :=
  hr.inv.2.2.2.1

theorem size_invariant_witness :
    Reachable stub_problem (cyclic_lib Int Int) [9, 4, 7] 1 0 scenario_next ∧
    scenario_next.population.length = [(9 : Int), 4, 7].length :=
  ⟨scenario_next_reachable,
    size_invariant stub_problem (cyclic_lib Int Int) [9, 4, 7] 1 0 scenario_next
      scenario_next_reachable⟩

/-- C3, elite preservation: every solution at a position below `elite_count()`
of `population()` before a completed `iterate()` is an element of
`population()` after it, with the same individual and the same fitness. -/
theorem elite_preservation (P : Problem I F G E) (L : StdLib I F G) (xs : List I) (k : Nat)
    (g : G) (s t : algorithm I F G) (fuel : Nat) (hr : Reachable P L xs k g s)
    (hi : iterate P L fuel s = .completed t) :
    ∀ (i : Nat) (h : i < s.population.length), i < s.elite_count →
      s.population[i] ∈ t.population := by
  intro i h hik
  obtain ⟨hn, hkk, hk, hlen, _⟩ := hr.inv
  obtain ⟨scratch, g1, _, _, _, hp, _⟩ := iterate_completed P L fuel s t hi hn (by omega)
  show s.population_[i] ∈ t.population_
  rw [hp, sort_population, (L.sort_perm _ _).mem_iff]
  refine List.mem_append_left _ ?_
  rw [List.mem_take_iff_getElem]
  exact ⟨i, by
    have : i < s.elite_count_ := hik
    have : i < s.population_.length := h
    omega, rfl⟩

theorem elite_preservation_witness :
    Reachable stub_problem (cyclic_lib Int Int) [9, 4, 7] 1 0 scenario_initial ∧
    iterate stub_problem (cyclic_lib Int Int) 2 scenario_initial = .completed scenario_next ∧
    ∀ (i : Nat) (h : i < scenario_initial.population.length), i < scenario_initial.elite_count →
      scenario_initial.population[i] ∈ scenario_next.population :=
  ⟨scenario_initial_reachable, rfl,
    elite_preservation stub_problem (cyclic_lib Int Int) [9, 4, 7] 1 0 scenario_initial
      scenario_next 2 scenario_initial_reachable rfl⟩

/-- C4, construction validation: the constructor fails with the configuration
error exactly when `elite_count >= |initial individuals|`; so it fails for an
empty initial list and for an elite count equal to the population size, and a
call that fails so yields no engine; with `elite_count < |initial individuals|`
the constructor yields an engine or passes on an exception of the problem. -/
theorem construction_validation (P : Problem I F G E) (L : StdLib I F G) (xs : List I)
    (k : Nat) (g : G) :
    (construct P L xs k g = .error .configuration ↔ xs.length ≤ k) ∧
    construct P L [] k g = .error .configuration ∧
    construct P L xs xs.length g = .error .configuration ∧
    (((∃ s, construct P L xs k g = .ok s) ∨ (∃ e, construct P L xs k g = .error (.plugin e)))
      ↔ k < xs.length) := by
  have hfail : ∀ (ys : List I) (j : Nat), ys.length ≤ j →
      construct P L ys j g = .error .configuration := by
    intro ys j h
    simp [construct, h]
  have hpass : k < xs.length →
      (∃ s, construct P L xs k g = .ok s) ∨ (∃ e, construct P L xs k g = .error (.plugin e)) := by
    intro h
    have hk : ¬ k ≥ xs.length := by omega
    rcases he : evaluate_all P xs g with ⟨e | sols, g1⟩
    · exact Or.inr ⟨e, by simp [construct, hk, he]⟩
    · exact Or.inl ⟨algorithm.mk (sort_population P L sols) [] k g1,
        by simp only [construct, hk, he, if_false]⟩
  refine ⟨⟨?_, hfail xs k⟩, hfail [] k (by simp), hfail xs xs.length le_rfl, ⟨?_, hpass⟩⟩
  · intro h
    by_contra hk
    rcases hpass (by omega) with ⟨s, hs⟩ | ⟨e, he⟩
    · rw [hs] at h
      cases h
    · rw [he] at h
      cases h
  · intro h
    by_contra hk
    rw [hfail xs k (by omega)] at h
    rcases h with ⟨s, hs⟩ | ⟨e, he⟩
    · cases hs
    · cases he

/-- C5, construction effect: let `elite_count < N`, and let the evaluations of
`x_0, x_1, ...`, made once each in the order supplied, the first on the
generator handed to the constructor and each next one on the generator state
left by the one before, return the fitnesses `f_0, f_1, ...`.  Then the
constructor yields an engine whose `population()` is a rearrangement of the
pairs `(x_i, f_i)`, in ascending order of fitness, and whose generator is the
state left by the last evaluation. -/
theorem construction_effect (P : Problem I F G E) (L : StdLib I F G) (xs : List I) (k : Nat)
    (g : G) (fs : List F) (gs : List G) (hswo : StrictWeakOrder P.lt) (hk : k < xs.length)
    (hfs : fs.length = xs.length) (hgs : gs.length = xs.length + 1) (h0 : gs[0] = g)
    (hchain : ∀ (i : Nat) (hi : i < xs.length),
      P.evaluate xs[i] gs[i] = (.ok fs[i], gs[i + 1])) :
    ∃ s, construct P L xs k g = .ok s ∧
      s.population.Perm (List.zipWith solution_type.mk xs fs) ∧
      Ascending (fitness_less P.lt) s.population ∧
      s.generator = gs[xs.length] := by
  obtain ⟨g1, hg1, hall⟩ := evaluate_all_of_chain P xs g fs gs hfs hgs
    (by rw [List.getElem?_eq_getElem (by omega), h0])
    (fun i x hx => by
      obtain ⟨hi, rfl⟩ := List.getElem?_eq_some_iff.mp hx
      exact ⟨fs[i], gs[i], gs[i + 1], List.getElem?_eq_getElem _, List.getElem?_eq_getElem _,
        List.getElem?_eq_getElem _, hchain i hi⟩)
  rw [List.getElem?_eq_getElem (by omega), Option.some.injEq] at hg1
  have hnk : ¬ k ≥ xs.length := by omega
  refine ⟨algorithm.mk (sort_population P L (List.zipWith solution_type.mk xs fs)) [] k g1,
    by simp only [construct, hnk, hall, if_false], L.sort_perm _ _,
    L.sort_sorted _ _ hswo.fitness_less, hg1.symm⟩

theorem construction_effect_witness :
    StrictWeakOrder stub_problem.lt ∧ 1 < [(9 : Int), 4, 7].length ∧
    stub_problem.evaluate 9 0 = (.ok 9, 0) ∧ stub_problem.evaluate 4 0 = (.ok 4, 0) ∧
    stub_problem.evaluate 7 0 = (.ok 7, 0) ∧
    ∃ s, construct stub_problem (cyclic_lib Int Int) [9, 4, 7] 1 0 = .ok s ∧
      s.population.Perm (List.zipWith solution_type.mk [9, 4, 7] [9, 4, 7]) ∧
      Ascending (fitness_less stub_problem.lt) s.population ∧
      s.generator = 0 :=
  ⟨stub_strict_weak_order, by decide, rfl, rfl, rfl,
    construction_effect stub_problem (cyclic_lib Int Int) [9, 4, 7] 1 0 [9, 4, 7] [0, 0, 0, 0]
      stub_strict_weak_order (by decide) rfl rfl rfl
      (fun i hi => by
        have h3 : i < 3 := hi
        interval_cases i <;> rfl)⟩

/-- C6, generational replacement: after a completed `iterate()` on a reachable
state with population `P` of size `N` and elite count `k`, the breeding loop
has filled the scratch vector with exactly `N - k` solutions, and the new
population is a rearrangement of `P[0..k)` followed by the scratch vector: the
solutions of positions `k..N-1` are not carried over, whatever their fitness. -/
theorem generational_replacement (P : Problem I F G E) (L : StdLib I F G) (xs : List I)
    (k : Nat) (g : G) (s t : algorithm I F G) (fuel : Nat) (hr : Reachable P L xs k g s)
    (hi : iterate P L fuel s = .completed t) :
    ∃ scratch g1,
      breed P L s.population (s.population.length - s.elite_count) fuel [] s.generator
        = .completed (scratch, g1) ∧
      scratch.length = s.population.length - s.elite_count ∧
      t.population.Perm (s.population.take s.elite_count ++ scratch) ∧
      t.population.length = s.population.length := by
  obtain ⟨hn, hkk, hk, hlen, _⟩ := hr.inv
  obtain ⟨scratch, g1, hb, hs1, _, hp, _⟩ := iterate_completed P L fuel s t hi hn (by omega)
  have hperm : t.population_.Perm (s.population_.take s.elite_count_ ++ scratch) := by
    rw [hp]
    exact L.sort_perm _ _
  refine ⟨scratch, g1, hb, hs1, hperm, ?_⟩
  show t.population_.length = s.population_.length
  rw [hperm.length_eq, List.length_append, List.length_take, hs1]
  omega

theorem generational_replacement_witness :
    Reachable stub_problem (cyclic_lib Int Int) [9, 4, 7] 1 0 scenario_initial ∧
    iterate stub_problem (cyclic_lib Int Int) 2 scenario_initial = .completed scenario_next ∧
    ∃ scratch g1,
      breed stub_problem (cyclic_lib Int Int) scenario_initial.population
        (scenario_initial.population.length - scenario_initial.elite_count) 2 []
        scenario_initial.generator = .completed (scratch, g1) ∧
      scratch.length = scenario_initial.population.length - scenario_initial.elite_count ∧
      scenario_next.population.Perm
        (scenario_initial.population.take scenario_initial.elite_count ++ scratch) ∧
      scenario_next.population.length = scenario_initial.population.length :=
  ⟨scenario_initial_reachable, rfl,
    generational_replacement stub_problem (cyclic_lib Int Int) [9, 4, 7] 1 0 scenario_initial
      scenario_next 2 scenario_initial_reachable rfl⟩

/-- C7, scenario trace: with the stub problem and the generator drawing
`0, 2, 1, 0, 2, 1, ...`, the constructor on `[9, 4, 7]` with one elite leaves
the fitnesses `[4, 7, 9]`; the four tournaments of one `iterate()` select the
parents `(4, 4)` and then `(7, 4)`, the breeding loop ends with the scratch
vector `[4, 4]`, and `iterate()` (given at least two rounds) leaves the
fitnesses `[4, 4, 4]`. -/
theorem scenario_trace :
    construct stub_problem (cyclic_lib Int Int) [9, 4, 7] 1 0 = .ok scenario_initial ∧
    scenario_initial.population.map (fun a => a.fitness) = [4, 7, 9] ∧
    binary_tournament stub_problem (cyclic_lib Int Int) scenario_initial.population 0
      = (some 4, 2) ∧
    binary_tournament stub_problem (cyclic_lib Int Int) scenario_initial.population 2
      = (some 4, 4) ∧
    binary_tournament stub_problem (cyclic_lib Int Int) scenario_initial.population 4
      = (some 7, 6) ∧
    binary_tournament stub_problem (cyclic_lib Int Int) scenario_initial.population 6
      = (some 4, 8) ∧
    breed stub_problem (cyclic_lib Int Int) scenario_initial.population 2 1 [] 0
      = .exhausted ∧
    breed stub_problem (cyclic_lib Int Int) scenario_initial.population 2 2 [] 0
      = .completed ([⟨4, 4⟩, ⟨4, 4⟩], 8) ∧
    (∀ extra : Nat, iterate stub_problem (cyclic_lib Int Int) (2 + extra) scenario_initial
      = .completed scenario_next) ∧
    scenario_next.population.map (fun a => a.fitness) = [4, 4, 4] :=
  ⟨rfl, rfl, rfl, rfl, rfl, rfl, rfl, rfl,
    fun extra => iterate_completed_mono stub_problem (cyclic_lib Int Int) 2 extra
      scenario_initial scenario_next rfl, rfl⟩

/-- C8, monotone non-degradation of the best `k`: when the fitness comparison
is a strict weak ordering, after a completed `iterate()` on a reachable state
the fitness at every rank `i < elite_count()` is not greater than the fitness
that stood at rank `i` before the call; with at least one elite, rank `0`
says that the best fitness never gets worse. -/
theorem elite_non_degradation (P : Problem I F G E) (L : StdLib I F G) (xs : List I) (k : Nat)
    (g : G) (s t : algorithm I F G) (fuel : Nat) (hswo : StrictWeakOrder P.lt)
    (hr : Reachable P L xs k g s) (hi : iterate P L fuel s = .completed t) :
    ∀ (i : Nat) (hs : i < s.population.length) (ht : i < t.population.length),
      i < s.elite_count →
      P.lt (s.population[i]).fitness (t.population[i]).fitness = false := by
  intro i hs ht hik
  obtain ⟨hn, hkk, hk, hlen, _⟩ := hr.inv
  obtain ⟨scratch, g1, _, _, _, hp, _⟩ := iterate_completed P L fuel s t hi hn (by omega)
  have hperm : (s.population_.take s.elite_count_ ++ scratch).Perm t.population_ := by
    rw [hp]
    exact (L.sort_perm _ _).symm
  have hik1 : i + 1 ≤ s.elite_count_ := hik
  have hsub : (s.population_.take (i + 1)).Subperm t.population_ :=
    (((List.take_sublist_take_left s.population_ hik1).trans
      (List.sublist_append_left _ scratch)).subperm).trans hperm.subperm
  exact Ascending.rank_le hswo.fitness_less ((Reachable.iterated fuel hr hi).ascending hswo)
    (hr.ascending hswo) ht hs hsub

theorem elite_non_degradation_witness :
    StrictWeakOrder stub_problem.lt ∧
    Reachable stub_problem (cyclic_lib Int Int) [9, 4, 7] 1 0 scenario_initial ∧
    iterate stub_problem (cyclic_lib Int Int) 2 scenario_initial = .completed scenario_next ∧
    ∀ (i : Nat) (_ : i < scenario_initial.population.length)
      (_ : i < scenario_next.population.length), i < scenario_initial.elite_count →
      stub_problem.lt (scenario_initial.population[i]).fitness
        (scenario_next.population[i]).fitness = false :=
  ⟨stub_strict_weak_order, scenario_initial_reachable, rfl,
    elite_non_degradation stub_problem (cyclic_lib Int Int) [9, 4, 7] 1 0 scenario_initial
      scenario_next 2 stub_strict_weak_order scenario_initial_reachable rfl⟩

/-- C9 as stated fails: the problem whose `recombine` returns the empty sequence
on every call is admitted by the claim, the state built from `[9, 4, 7]` with
one elite is reachable, and on it the breeding loop of `iterate()` never ends:
whatever number of rounds is allowed, the loop has not ended within it. -/
theorem termination_counterexample :
    Reachable barren_problem (cyclic_lib Int Int) [9, 4, 7] 1 0 scenario_initial ∧
    (∀ (a b : Int) (g : Nat), barren_problem.recombine a b g = (.ok [], g)) ∧
    ∀ fuel : Nat,
      iterate barren_problem (cyclic_lib Int Int) fuel scenario_initial = .exhausted :=
  ⟨.constructed rfl, fun _ _ _ => rfl, fun fuel => by
    have hb : breed barren_problem (cyclic_lib Int Int) scenario_initial.population_
        (size_sub scenario_initial.population_.length scenario_initial.elite_count_) fuel
        scenario_initial.next_population_ scenario_initial.generator_ = .exhausted :=
      breed_exhausted_of_barren barren_problem (cyclic_lib Int Int)
        scenario_initial.population_ 2 (by decide) (fun a b g => ⟨g, rfl⟩) fuel [] 0 (by decide)
    unfold iterate
    rw [hb]⟩

/-- C9 as amended, termination of `iterate()`: on a reachable state, for a
problem whose `recombine` yields a non-empty sequence of children on every
call that returns, `iterate()` ends once `N - k` rounds of the breeding loop
are allowed: it returns normally, the loop having reached a scratch vector of
exactly `N - k` solutions, or it passes on an exception that an operation of
the problem raised. -/
theorem iterate_terminates (P : Problem I F G E) (L : StdLib I F G) (xs : List I) (k : Nat)
    (g : G) (s : algorithm I F G) (fuel : Nat) (hr : Reachable P L xs k g s)
    (hne : ∀ a b g0 cs g1, P.recombine a b g0 = (.ok cs, g1) → cs ≠ [])
    (hfuel : s.population.length - s.elite_count ≤ fuel) :
    (∃ t scratch g1, iterate P L fuel s = .completed t ∧
      breed P L s.population (s.population.length - s.elite_count) fuel [] s.generator
        = .completed (scratch, g1) ∧
      scratch.length = s.population.length - s.elite_count) ∨
    (∃ e t, iterate P L fuel s = .raised e t ∧ Raises P e) := by
  obtain ⟨hn, hkk, hk, hlen, _⟩ := hr.inv
  have hkN : s.elite_count_ < s.population_.length := by omega
  have hpop : s.population_ ≠ [] := by
    intro h0
    rw [h0] at hkN
    simp at hkN
  have hterm := breed_terminates P L s.population_ (s.population_.length - s.elite_count_)
    hpop hne fuel [] s.generator_ (by simpa using hfuel)
  rcases hterm with ⟨⟨scratch, g1⟩, hb⟩ | ⟨e, ⟨scratch, g1⟩, hb, hraises⟩
  · obtain ⟨bred, hb1, hb2, _⟩ := breed_completed P L _ _ _ _ _ _ _ hb (by simp)
    refine Or.inl ⟨algorithm.mk (sort_population P L (s.population_.take s.elite_count_ ++ scratch))
      [] s.elite_count_ g1, scratch, g1, ?_, hb, hb2⟩
    unfold iterate
    rw [size_sub_of_le hkN.le, hn, hb]
    simp only
    rw [move_into_full _ _ _ (by omega)]
  · refine Or.inr ⟨e, algorithm.mk s.population_ scratch s.elite_count_ g1, ?_, hraises⟩
    unfold iterate
    rw [size_sub_of_le hkN.le, hn, hb]

theorem iterate_terminates_witness :
    Reachable stub_problem (cyclic_lib Int Int) [9, 4, 7] 1 0 scenario_initial ∧
    (∀ a b g0 cs g1, stub_problem.recombine a b g0 = (.ok cs, g1) → cs ≠ []) ∧
    scenario_initial.population.length - scenario_initial.elite_count ≤ 2 ∧
    ((∃ t scratch g1,
      iterate stub_problem (cyclic_lib Int Int) 2 scenario_initial = .completed t ∧
      breed stub_problem (cyclic_lib Int Int) scenario_initial.population
        (scenario_initial.population.length - scenario_initial.elite_count) 2 []
        scenario_initial.generator = .completed (scratch, g1) ∧
      scratch.length = scenario_initial.population.length - scenario_initial.elite_count) ∨
    (∃ e t, iterate stub_problem (cyclic_lib Int Int) 2 scenario_initial = .raised e t ∧
      Raises stub_problem e)) :=
  have hne : ∀ (a b : Int) (g0 : Nat) (cs : List Int) (g1 : Nat),
      stub_problem.recombine a b g0 = (.ok cs, g1) → cs ≠ [] := by
    intro a b g0 cs g1 h
    simp only [stub_problem, Prod.mk.injEq, Except.ok.injEq] at h
    rw [← h.1]
    simp
  ⟨scenario_initial_reachable, hne, by decide,
    iterate_terminates stub_problem (cyclic_lib Int Int) [9, 4, 7] 1 0 scenario_initial 2
      scenario_initial_reachable hne (by decide)⟩

/-- C10, fitness provenance: for a problem whose `evaluate` returns a fitness
`φ x` that depends on the individual `x` alone, every solution of
`population()` in every reachable state carries the fitness `φ` of the
individual stored with it (for a bred solution, the child after mutation). -/
theorem fitness_provenance (P : Problem I F G E) (L : StdLib I F G) (xs : List I) (k : Nat)
    (g : G) (s : algorithm I F G) (φ : I → F)
    (hpure : ∀ x g0 f g1, P.evaluate x g0 = (.ok f, g1) → f = φ x)
    (hr : Reachable P L xs k g s) :
    ∀ a ∈ s.population, a.fitness = φ a.x := by
  intro a ha
  obtain ⟨g0, g1, hev⟩ := hr.inv.2.2.2.2 a ha
  exact hpure _ _ _ _ hev

theorem fitness_provenance_witness :
    (∀ (x : Int) (g0 : Nat) (f : Int) (g1 : Nat),
      stub_problem.evaluate x g0 = (.ok f, g1) → f = id x) ∧
    Reachable stub_problem (cyclic_lib Int Int) [9, 4, 7] 1 0 scenario_next ∧
    ∀ a ∈ scenario_next.population, a.fitness = id a.x :=
  have hpure : ∀ (x : Int) (g0 : Nat) (f : Int) (g1 : Nat),
      stub_problem.evaluate x g0 = (.ok f, g1) → f = id x := by
    intro x g0 f g1 h
    simp only [stub_problem, Prod.mk.injEq, Except.ok.injEq] at h
    exact h.1.symm
  ⟨hpure, scenario_next_reachable,
    fitness_provenance stub_problem (cyclic_lib Int Int) [9, 4, 7] 1 0 scenario_next id hpure
      scenario_next_reachable⟩

/-- C12, elite-count invariant: in every reachable state `elite_count()` is
the value given to the constructor and is less than the size of
`population()`; so the population is not empty, the upper bound `N - 1` of the
tournament distribution is computed without wrap-around, every index the
distribution draws is a position of `population()` (every tournament yields a
parent), and `N - k` is computed without wrap-around and is at least one. -/
theorem elite_count_invariant (P : Problem I F G E) (L : StdLib I F G) (xs : List I) (k : Nat)
    (g : G) (s : algorithm I F G) (hr : Reachable P L xs k g s) :
    s.elite_count = k ∧ s.elite_count < s.population.length ∧ s.population ≠ [] ∧
    size_sub s.population.length 1 + 1 = s.population.length ∧
    (∀ g0 : G, (L.uniform (size_sub s.population.length 1) g0).1 < s.population.length) ∧
    (∀ g0 : G, ∃ parent g1, binary_tournament P L s.population g0 = (some parent, g1)) ∧
    size_sub s.population.length s.elite_count + s.elite_count = s.population.length ∧
    1 ≤ size_sub s.population.length s.elite_count := by
  obtain ⟨_, hkk, hk, hlen, _⟩ := hr.inv
  have hkN : s.elite_count_ < s.population_.length := by omega
  have hpos : 0 < s.population_.length := by omega
  have hpop : s.population_ ≠ [] := List.length_pos.mp hpos
  have h1 : size_sub s.population_.length 1 = s.population_.length - 1 := size_sub_of_le hpos
  have hM : size_sub s.population_.length s.elite_count_
      = s.population_.length - s.elite_count_ := size_sub_of_le hkN.le
  refine ⟨hkk, hkN, hpop, ?_, ?_, ?_, ?_, ?_⟩
  · show size_sub s.population_.length 1 + 1 = s.population_.length
    omega
  · intro g0
    show (L.uniform (size_sub s.population_.length 1) g0).1 < s.population_.length
    have := L.uniform_le (size_sub s.population_.length 1) g0
    omega
  · intro g0
    exact binary_tournament_some P L s.population_ g0 hpop
  · show size_sub s.population_.length s.elite_count_ + s.elite_count_ = s.population_.length
    omega
  · show 1 ≤ size_sub s.population_.length s.elite_count_
    omega

theorem elite_count_invariant_witness :
    Reachable stub_problem (cyclic_lib Int Int) [9, 4, 7] 1 0 scenario_next ∧
    (scenario_next.elite_count = 1 ∧
      scenario_next.elite_count < scenario_next.population.length ∧
      scenario_next.population ≠ [] ∧
      size_sub scenario_next.population.length 1 + 1 = scenario_next.population.length ∧
      (∀ g0 : Nat, ((cyclic_lib Int Int).uniform (size_sub scenario_next.population.length 1)
        g0).1 < scenario_next.population.length) ∧
      (∀ g0 : Nat, ∃ parent g1, binary_tournament stub_problem (cyclic_lib Int Int)
        scenario_next.population g0 = (some parent, g1)) ∧
      size_sub scenario_next.population.length scenario_next.elite_count
        + scenario_next.elite_count = scenario_next.population.length ∧
      1 ≤ size_sub scenario_next.population.length scenario_next.elite_count) :=
  ⟨scenario_next_reachable,
    elite_count_invariant stub_problem (cyclic_lib Int Int) [9, 4, 7] 1 0 scenario_next
      scenario_next_reachable⟩

/-- C13 as stated fails: a problem type that offers both the single-mode and
the batch-mode `evaluate` satisfies `SingleEvaluation` and `MultiEvaluation`
alike, and `meta::Problem` holds for it. -/
theorem evaluation_modes_counterexample :
    meta.SingleEvaluation meta.both_modes_type = true ∧
    meta.MultiEvaluation meta.both_modes_type = true ∧
    meta.Problem meta.both_modes_type = true := by
  decide

/-- C13 as amended, capability contract on evaluation modes: `meta::Problem<T>`
holds exactly when the requirements on `mutate`, `recombine` and the fitness
comparison hold and at least one of the two evaluation modes is present; so a
type with neither mode is rejected, whereas a type with both modes is treated
like a type with one of them. -/
theorem evaluation_modes (T : meta.problem_type) :
    (meta.Problem T = true ↔
      (meta.compiles T.mutate_result = true ∧
        meta.is_same T.mutate_result (some meta.cpp_type.void) = true ∧
        meta.compiles T.recombine_result = true ∧ T.recombine_iterable = true ∧
        meta.is_same T.individual_type T.recombine_value_type = true ∧
        T.fitness_comparison = true) ∧
      (meta.SingleEvaluation T = true ∨ meta.MultiEvaluation T = true)) ∧
    (meta.SingleEvaluation T = false ∧ meta.MultiEvaluation T = false ↔
      meta.disjunction [meta.SingleEvaluation T, meta.MultiEvaluation T] = false) := by
  have key : ∀ a b c d e f x y : Bool,
      (meta.conjunction [a, b, c, d, e, f, meta.disjunction [x, y]] = true ↔
        (a = true ∧ b = true ∧ c = true ∧ d = true ∧ e = true ∧ f = true) ∧
        (x = true ∨ y = true)) ∧
      (x = false ∧ y = false ↔ meta.disjunction [x, y] = false) := by
    intro a b c d e f x y
    cases a <;> cases b <;> cases c <;> cases d <;> cases e <;> cases f <;> cases x <;>
      cases y <;> decide
  exact key _ _ _ _ _ _ _ _

/-- C14, binary tournament result: when the two draws of a tournament are the
positions `i` and `j` of the population, the tournament returns the individual
at `i` if the fitness at `i` is `<` the fitness at `j`, and the individual at
`j` otherwise (so also on a tie and when `i = j`), and leaves the generator
state of the second draw; when `<` is asymmetric, the fitness of the
candidate not selected is not `<` the fitness of the selected one. -/
theorem binary_tournament_result (P : Problem I F G E) (L : StdLib I F G)
    (population : List (solution_type I F)) (g g1 g2 : G) (i j : Nat)
    (hi : i < population.length) (hj : j < population.length)
    (hd1 : L.uniform (size_sub population.length 1) g = (i, g1))
    (hd2 : L.uniform (size_sub population.length 1) g1 = (j, g2)) :
    binary_tournament P L population g =
      (some (if P.lt population[i].fitness population[j].fitness then population[i].x
        else population[j].x), g2) ∧
    (P.lt population[i].fitness population[j].fitness = false →
      binary_tournament P L population g = (some population[j].x, g2)) ∧
    ((∀ a b, P.lt a b = true → P.lt b a = false) →
      if P.lt population[i].fitness population[j].fitness
      then P.lt population[j].fitness population[i].fitness = false
      else P.lt population[i].fitness population[j].fitness = false) := by
  have hbt := binary_tournament_of_draws P L population g g1 g2 i j hi hj hd1 hd2
  refine ⟨hbt, ?_, ?_⟩
  · intro hlt
    rw [hbt, hlt]
    rfl
  · intro hasym
    cases hlt : P.lt population[i].fitness population[j].fitness
    · simp
    · simpa using hasym _ _ hlt

theorem binary_tournament_result_witness :
    2 < scenario_initial.population.length ∧ 1 < scenario_initial.population.length ∧
    (cyclic_lib Int Int).uniform (size_sub scenario_initial.population.length 1) 4 = (2, 5) ∧
    (cyclic_lib Int Int).uniform (size_sub scenario_initial.population.length 1) 5 = (1, 6) ∧
    binary_tournament stub_problem (cyclic_lib Int Int) scenario_initial.population 4
      = (some 7, 6) :=
  ⟨by decide, by decide, rfl, rfl,
    (binary_tournament_result stub_problem (cyclic_lib Int Int) scenario_initial.population
      4 5 6 2 1 (by decide) (by decide) rfl rfl).1⟩

/-- C16, generator consumption order: a call of `iterate()` on a reachable
state returns normally exactly when the breeding loop is a run of rounds in the
order of the specification (`RoundsInOrder`), and it then leaves the result of
that run.  In each round the one generator goes through the first and the
second draw of the tournament for `parent1`, the first and the second draw of
the tournament for `parent2`, `recombine(parent1, parent2)`, and then
`mutate(child)` followed by `evaluate(child)` for each consumed child in turn;
every call starts from the generator state the call before left, the next
round starts from the state the last evaluation left, and `generator()` after
the call is the state the last round left. -/
theorem generator_order (P : Problem I F G E) (L : StdLib I F G) (xs : List I) (k : Nat)
    (g : G) (s t : algorithm I F G) (fuel : Nat) (hr : Reachable P L xs k g s) :
    iterate P L fuel s = .completed t ↔
      ∃ n scratch g1, n ≤ fuel ∧
        RoundsInOrder P L s.population (s.population.length - s.elite_count) []
          s.generator scratch g1 n ∧
        t = algorithm.mk
          (sort_population P L (s.population.take s.elite_count ++ scratch)) []
          s.elite_count g1 := by
  obtain ⟨hn, hkk, hk, hlen, _⟩ := hr.inv
  have hkN : s.elite_count_ < s.population_.length := by omega
  constructor
  · intro hi
    obtain ⟨scratch, g1, hb, _, _, hp, hn1, hk1, hg1⟩ :=
      iterate_completed P L fuel s t hi hn hkN
    obtain ⟨n, hnf, hrounds⟩ := rounds_of_breed P L _ _ _ _ _ _ _ hb
    refine ⟨n, scratch, g1, hnf, hrounds, ?_⟩
    cases t
    simp only at hp hn1 hk1 hg1
    subst hp hn1 hk1 hg1
    rfl
  · rintro ⟨n, scratch, g1, hnf, hrounds, rfl⟩
    have hb3 : breed P L s.population_ (s.population_.length - s.elite_count_) fuel []
        s.generator_ = .completed (scratch, g1) := breed_of_rounds P L _ _ hrounds fuel hnf
    obtain ⟨bred, _, hb2, _⟩ := breed_completed P L _ _ _ _ _ _ _ hb3 (by simp)
    unfold iterate
    rw [size_sub_of_le hkN.le, hn, hb3]
    simp only
    rw [move_into_full _ _ _ (by omega)]
    rfl

theorem generator_order_witness :
    Reachable scrambling_problem (cyclic_lib Int Int) [9, 4, 7] 0 0 scrambled_initial ∧
    RoundsInOrder scrambling_problem (cyclic_lib Int Int) scrambled_initial.population
      (scrambled_initial.population.length - scrambled_initial.elite_count) []
      scrambled_initial.generator [⟨107, -44⟩, ⟨165, -152⟩, ⟨1319, -650⟩] 1976 2 ∧
    iterate scrambling_problem (cyclic_lib Int Int) 2 scrambled_initial
      = .completed scrambled_next :=
  have hreach : Reachable scrambling_problem (cyclic_lib Int Int) [9, 4, 7] 0 0
      scrambled_initial := .constructed rfl
  have hround1 : RoundInOrder scrambling_problem (cyclic_lib Int Int)
      scrambled_initial.population 3 21 [⟨107, -44⟩, ⟨165, -152⟩] 324 :=
    .intro (by decide) (by decide) (by decide) (by decide)
      (rfl : cyclic_uniform 2 21 = (0, 22)) (rfl : cyclic_uniform 2 22 = (2, 23))
      (rfl : cyclic_uniform 2 23 = (1, 24)) (rfl : cyclic_uniform 2 24 = (0, 25))
      (rfl : scrambling_problem.recombine 7 7 25 = (.ok [32, 7], 75))
      (.cons (rfl : scrambling_problem.mutate 32 75 = (.ok 107, 151))
        (rfl : scrambling_problem.evaluate 107 151 = (.ok (-44), 158))
        (.cons (rfl : scrambling_problem.mutate 7 158 = (.ok 165, 317))
          (rfl : scrambling_problem.evaluate 165 317 = (.ok (-152), 324)) (.nil 324)))
  have hround2 : RoundInOrder scrambling_problem (cyclic_lib Int Int)
      scrambled_initial.population 1 324 [⟨1319, -650⟩] 1976 :=
    .intro (by decide) (by decide) (by decide) (by decide)
      (rfl : cyclic_uniform 2 324 = (0, 325)) (rfl : cyclic_uniform 2 325 = (2, 326))
      (rfl : cyclic_uniform 2 326 = (1, 327)) (rfl : cyclic_uniform 2 327 = (0, 328))
      (rfl : scrambling_problem.recombine 7 7 328 = (.ok [335, 7], 984))
      (.cons (rfl : scrambling_problem.mutate 335 984 = (.ok 1319, 1969))
        (rfl : scrambling_problem.evaluate 1319 1969 = (.ok (-650), 1976)) (.nil 1976))
  have hrounds : RoundsInOrder scrambling_problem (cyclic_lib Int Int)
      scrambled_initial.population
      (scrambled_initial.population.length - scrambled_initial.elite_count) []
      scrambled_initial.generator [⟨107, -44⟩, ⟨165, -152⟩, ⟨1319, -650⟩] 1976 2 :=
    .round (by decide) hround1 (.round (by decide) hround2 (.done (by decide)))
  ⟨hreach, hrounds,
    (generator_order scrambling_problem (cyclic_lib Int Int) [9, 4, 7] 0 0 scrambled_initial
      scrambled_next 2 hreach).mpr ⟨2, _, _, le_rfl, hrounds, rfl⟩⟩

/-- C18, population untouched by a failing breeding step: when an exception of
`recombine`, `mutate` or `evaluate` ends `iterate()`, the exception reaches
the caller, `population()` is the same list of solutions in the same order as
before the call, the elite count is the same, and the scratch vector is the
one before the call with the solutions bred so far appended. -/
theorem population_untouched_on_failure (P : Problem I F G E) (L : StdLib I F G) (fuel : Nat)
    (s t : algorithm I F G) (e : E) (h : iterate P L fuel s = .raised e t) :
    t.population = s.population ∧ t.elite_count = s.elite_count ∧
    (∃ ext, t.next_population_ = s.next_population_ ++ ext) ∧ Raises P e := by
  unfold iterate at h
  rcases hb : breed P L s.population_ (size_sub s.population_.length s.elite_count_) fuel
      s.next_population_ s.generator_ with ⟨scratch, g⟩ | ⟨e1, scratch, g⟩ | _ | _
  · rw [hb] at h
    simp only at h
    rcases hm : move_into scratch s.population_ s.elite_count_ with _ | pop
    · simp [hm] at h
    · simp [hm] at h
  · obtain ⟨hext, hra⟩ := breed_raised P L _ _ _ _ _ _ _ _ hb
    rw [hb] at h
    simp only [Outcome.raised.injEq] at h
    obtain ⟨rfl, rfl⟩ := h
    exact ⟨rfl, rfl, hext, hra⟩
  · simp [hb] at h
  · simp [hb] at h

theorem population_untouched_on_failure_witness :
    iterate faulty_problem (cyclic_lib Int Int) 2 scenario_initial
      = .raised () scenario_failed ∧
    (scenario_failed.population = scenario_initial.population ∧
      scenario_failed.elite_count = scenario_initial.elite_count ∧
      (∃ ext, scenario_failed.next_population_ = scenario_initial.next_population_ ++ ext) ∧
      Raises faulty_problem ()) :=
  ⟨rfl, population_untouched_on_failure faulty_problem (cyclic_lib Int Int) 2 scenario_initial
    scenario_failed () rfl⟩

/-- C19, the tournament favours the lower index in a sorted population: when
the population is in ascending order of fitness for a strict weak ordering and
the two draws are the positions `i` and `j`, the selected position `w` (one of
`i` and `j`) has a fitness equivalent to the fitness at `m = min i j` (neither
is `<` the other), and when the fitnesses at `i` and `j` are not equivalent
the selected position is `min i j` itself. -/
theorem tournament_favours_lower_index (P : Problem I F G E) (L : StdLib I F G)
    (population : List (solution_type I F)) (g g1 g2 : G) (i j : Nat)
    (hswo : StrictWeakOrder P.lt) (hsorted : Ascending (fitness_less P.lt) population)
    (hi : i < population.length) (hj : j < population.length)
    (hd1 : L.uniform (size_sub population.length 1) g = (i, g1))
    (hd2 : L.uniform (size_sub population.length 1) g1 = (j, g2)) :
    ∃ (w m : Nat) (_ : w < population.length) (_ : m < population.length),
      m = min i j ∧ (w = i ∨ w = j) ∧
      binary_tournament P L population g = (some population[w].x, g2) ∧
      P.lt population[w].fitness population[m].fitness = false ∧
      P.lt population[m].fitness population[w].fitness = false ∧
      ((P.lt population[i].fitness population[j].fitness = true ∨
        P.lt population[j].fitness population[i].fitness = true) → w = m) := by
  have hbt := binary_tournament_of_draws P L population g g1 g2 i j hi hj hd1 hd2
  have hsort : ∀ (a b : Nat) (ha : a < population.length) (hb : b < population.length),
      a ≤ b → P.lt population[b].fitness population[a].fitness = false :=
    fun a b ha hb hab => Ascending.getElem_le hswo.fitness_less hsorted hab ha hb
  cases hlt : P.lt population[i].fitness population[j].fitness
  · rw [hlt] at hbt
    by_cases hji : j ≤ i
    · exact ⟨j, j, hj, hj, by omega, Or.inr rfl, hbt, hswo.irrefl _, hswo.irrefl _,
        fun _ => rfl⟩
    · have hji2 := hsort i j hi hj (by omega)
      refine ⟨j, i, hj, hi, by omega, Or.inr rfl, hbt, hji2, hlt, ?_⟩
      intro hne
      rcases hne with h1 | h1
      · exact absurd h1 (by simp)
      · rw [hji2] at h1
        exact absurd h1 (by simp)
  · rw [hlt] at hbt
    have hij : i ≤ j := by
      by_contra hcon
      have := hsort j i hj hi (by omega)
      rw [hlt] at this
      exact absurd this (by simp)
    exact ⟨i, i, hi, hi, by omega, Or.inl rfl, hbt, hswo.irrefl _, hswo.irrefl _, fun _ => rfl⟩

theorem tournament_favours_lower_index_witness :
    StrictWeakOrder stub_problem.lt ∧
    Ascending (fitness_less stub_problem.lt) scenario_initial.population ∧
    ∃ (w m : Nat) (_ : w < scenario_initial.population.length)
      (_ : m < scenario_initial.population.length),
      m = min 2 1 ∧ (w = 2 ∨ w = 1) ∧
      binary_tournament stub_problem (cyclic_lib Int Int) scenario_initial.population 4
        = (some scenario_initial.population[w].x, 6) ∧
      stub_problem.lt scenario_initial.population[w].fitness
        scenario_initial.population[m].fitness = false ∧
      stub_problem.lt scenario_initial.population[m].fitness
        scenario_initial.population[w].fitness = false ∧
      ((stub_problem.lt scenario_initial.population[2].fitness
          scenario_initial.population[1].fitness = true ∨
        stub_problem.lt scenario_initial.population[1].fitness
          scenario_initial.population[2].fitness = true) → w = m) :=
  have hsorted : Ascending (fitness_less stub_problem.lt) scenario_initial.population :=
    scenario_initial_reachable.ascending stub_strict_weak_order
  ⟨stub_strict_weak_order, hsorted,
    tournament_favours_lower_index stub_problem (cyclic_lib Int Int)
      scenario_initial.population 4 5 6 2 1 stub_strict_weak_order hsorted (by decide)
      (by decide) rfl rfl⟩

/-- C15, early stop of breeding: run the engine on the recording problem.  In
a completed `iterate()` on a reachable state with population size `N` and
elite count `k`, the calls `ev` recorded during the call hold exactly `N - k`
calls of `mutate` and `N - k` calls of `evaluate`; the children mutated are,
in order, the first `N - k` of the children the recombinations returned, taken
from left to right; each evaluation is of the individual the mutation before
it left; the last call recorded is the evaluation that fills the scratch
vector, so no recombination follows it; the scratch vector ends with exactly
`N - k` solutions and no pass over children leaves more; and a pass over
children does and records the same as a pass over as many of its first
children as there are free slots: the other children are not touched. -/
theorem early_stop (P : Problem I F G E) (L : StdLib I F G) (xs : List I) (k : Nat)
    (gl0 : G × List (event I F E)) (s t : algorithm I F (G × List (event I F E)))
    (fuel : Nat) (hr : Reachable (spy P) (spy_lib E L) xs k gl0 s)
    (hi : iterate (spy P) (spy_lib E L) fuel s = .completed t) :
    ∃ ev scratch gl,
      t.generator.2 = s.generator.2 ++ ev ∧
      mutate_calls ev = s.population.length - s.elite_count ∧
      evaluate_calls ev = s.population.length - s.elite_count ∧
      mutate_inputs ev
        = ((recombine_outputs ev).flatten).take (s.population.length - s.elite_count) ∧
      evaluate_inputs ev = mutate_outputs ev ∧
      (∃ pre x f, ev = pre ++ [event.evaluate x (.ok f)]) ∧
      breed (spy P) (spy_lib E L) s.population (s.population.length - s.elite_count) fuel []
        s.generator = .completed (scratch, gl) ∧
      scratch.length = s.population.length - s.elite_count ∧
      (∀ (children : List I) (next : List (solution_type I F))
        (g0 : G × List (event I F E)),
        next.length < s.population.length - s.elite_count →
        breed_children (spy P) (s.population.length - s.elite_count) children next g0
          = breed_children (spy P) (s.population.length - s.elite_count)
              (children.take (s.population.length - s.elite_count - next.length)) next g0 ∧
        (breed_children (spy P) (s.population.length - s.elite_count) children next g0).2.1.length
          ≤ s.population.length - s.elite_count) := by
  obtain ⟨hn, hkk, hk, hlen, _⟩ := hr.inv
  have hkN : s.elite_count_ < s.population_.length := by omega
  obtain ⟨scratch, ⟨g1, log1⟩, hb, hs1, _, _, _, _, hgen⟩ :=
    iterate_completed (spy P) (spy_lib E L) fuel s t hi hn hkN
  rcases hgs : s.generator_ with ⟨g0, log0⟩
  have hb2 := hb
  rw [hgs] at hb2
  obtain ⟨ev, e1, _, _, e4, e5, e6, e6b, _, e8, _, _⟩ :=
    breed_spy_completed P L s.population_ (s.population_.length - s.elite_count_) fuel []
      g0 log0 scratch g1 log1 (by simp) hb2
  simp only [List.length_nil, Nat.sub_zero] at e4 e6 e6b e8
  refine ⟨ev, scratch, (g1, log1), ?_, ?_, ?_, e4, e5, e8 (by omega), hb, hs1, ?_⟩
  · show t.generator_.2 = s.generator_.2 ++ ev
    rw [hgen, hgs]
    exact e1
  · rw [mutate_calls_eq_length]
    exact e6
  · rw [evaluate_calls_eq_length]
    exact e6b
  · intro children next g0 hlt
    refine ⟨breed_children_take (spy P) _ children next g0 hlt, ?_⟩
    obtain ⟨bred, hb1, hb2, _⟩ := breed_children_spec (spy P) _ children next g0 hlt
    rw [hb1, List.length_append]
    exact hb2

theorem early_stop_witness :
    Reachable (spy twin_problem) (spy_lib Unit (cyclic_lib Int Int)) [9, 4, 7] 2 (0, [])
      twin_initial ∧
    iterate (spy twin_problem) (spy_lib Unit (cyclic_lib Int Int)) 1 twin_initial
      = .completed twin_next ∧
    ∃ ev scratch gl,
      twin_next.generator.2 = twin_initial.generator.2 ++ ev ∧
      mutate_calls ev = twin_initial.population.length - twin_initial.elite_count ∧
      evaluate_calls ev = twin_initial.population.length - twin_initial.elite_count ∧
      mutate_inputs ev = ((recombine_outputs ev).flatten).take
        (twin_initial.population.length - twin_initial.elite_count) ∧
      evaluate_inputs ev = mutate_outputs ev ∧
      (∃ pre x f, ev = pre ++ [event.evaluate x (.ok f)]) ∧
      breed (spy twin_problem) (spy_lib Unit (cyclic_lib Int Int)) twin_initial.population
        (twin_initial.population.length - twin_initial.elite_count) 1 []
        twin_initial.generator = .completed (scratch, gl) ∧
      scratch.length = twin_initial.population.length - twin_initial.elite_count ∧
      (∀ (children : List Int) (next : List (solution_type Int Int))
        (g0 : Nat × List (event Int Int Unit)),
        next.length < twin_initial.population.length - twin_initial.elite_count →
        breed_children (spy twin_problem)
            (twin_initial.population.length - twin_initial.elite_count) children next g0
          = breed_children (spy twin_problem)
              (twin_initial.population.length - twin_initial.elite_count)
              (children.take
                (twin_initial.population.length - twin_initial.elite_count - next.length))
              next g0 ∧
        (breed_children (spy twin_problem)
            (twin_initial.population.length - twin_initial.elite_count) children next
            g0).2.1.length
          ≤ twin_initial.population.length - twin_initial.elite_count) :=
  have hreach : Reachable (spy twin_problem) (spy_lib Unit (cyclic_lib Int Int)) [9, 4, 7] 2
      (0, []) twin_initial := .constructed rfl
  ⟨hreach, rfl,
    early_stop twin_problem (cyclic_lib Int Int) [9, 4, 7] 2 (0, []) twin_initial twin_next 1
      hreach rfl⟩

/-- C17, bounded breeding under productive recombination: run the engine on the
recording problem.  When `recombine` returns at least one child on every call
that returns, `iterate()` on a reachable state ends once `N - k` rounds are
allowed, normally or with an exception of the problem; either way the calls
`ev` recorded during the call hold at most `N - k` calls of `recombine` and
four draws for each of them; and when `iterate()` returns normally and every
recombination returns exactly `c >= 1` children, the number of calls of
`recombine` is `ceil((N - k) / c)`. -/
theorem bounded_breeding (P : Problem I F G E) (L : StdLib I F G) (xs : List I) (k : Nat)
    (gl0 : G × List (event I F E)) (s : algorithm I F (G × List (event I F E)))
    (fuel : Nat) (hr : Reachable (spy P) (spy_lib E L) xs k gl0 s)
    (hne : ∀ a b g0 cs g1, P.recombine a b g0 = (.ok cs, g1) → cs ≠ [])
    (hfuel : s.population.length - s.elite_count ≤ fuel) :
    (∃ t ev, iterate (spy P) (spy_lib E L) fuel s = .completed t ∧
      t.generator.2 = s.generator.2 ++ ev ∧
      recombine_calls ev ≤ s.population.length - s.elite_count ∧
      draws ev = 4 * recombine_calls ev ∧
      (∀ c, 1 ≤ c → (∀ a b g0 cs g1, P.recombine a b g0 = (.ok cs, g1) → cs.length = c) →
        recombine_calls ev = (s.population.length - s.elite_count + c - 1) / c)) ∨
    (∃ e t ev, iterate (spy P) (spy_lib E L) fuel s = .raised e t ∧
      t.generator.2 = s.generator.2 ++ ev ∧
      recombine_calls ev ≤ s.population.length - s.elite_count ∧
      draws ev = 4 * recombine_calls ev) := by
  obtain ⟨hn, hkk, hk, hlen, _⟩ := hr.inv
  have hkN : s.elite_count_ < s.population_.length := by omega
  have hpop : s.population_ ≠ [] := by
    intro h0
    rw [h0] at hkN
    simp at hkN
  rcases hgs : s.generator_ with ⟨g0, log0⟩
  have hterm := breed_terminates (spy P) (spy_lib E L) s.population_
    (s.population_.length - s.elite_count_) hpop (spy_recombine_nonempty P hne) fuel []
    (g0, log0) (by simpa using hfuel)
  rcases hterm with ⟨⟨scratch, g1, log1⟩, hb⟩ | ⟨e, ⟨scratch, g1, log1⟩, hb, _⟩
  · obtain ⟨bred, _, hb2, _⟩ := breed_completed (spy P) (spy_lib E L) _ _ _ _ _ _ _ hb
      (by simp)
    obtain ⟨ev, e1, e2, _, _, _, _, _, _, _, e9, e10⟩ :=
      breed_spy_completed P L s.population_ (s.population_.length - s.elite_count_) fuel []
        g0 log0 scratch g1 log1 (by simp) hb
    simp only [List.length_nil, Nat.sub_zero] at e9 e10
    refine Or.inl ⟨algorithm.mk
      (sort_population (spy P) (spy_lib E L) (s.population_.take s.elite_count_ ++ scratch))
      [] s.elite_count_ (g1, log1), ev, ?_, ?_, e9 hne, e2, e10⟩
    · unfold iterate
      rw [size_sub_of_le hkN.le, hn, hgs, hb]
      simp only
      rw [move_into_full _ _ _ (by omega)]
    · show log1 = s.generator_.2 ++ ev
      rw [hgs]
      exact e1
  · obtain ⟨ev, e1, e2, _, e4⟩ :=
      breed_spy_raised P L s.population_ (s.population_.length - s.elite_count_) fuel []
        g0 log0 e scratch g1 log1 (by simp) hb
    simp only [List.length_nil, Nat.sub_zero] at e4
    refine Or.inr ⟨e, algorithm.mk s.population_ scratch s.elite_count_ (g1, log1), ev,
      ?_, ?_, e4 hne, e2⟩
    · apply iterate_raised
      rw [size_sub_of_le hkN.le, hn, hgs]
      exact hb
    · show log1 = s.generator_.2 ++ ev
      rw [hgs]
      exact e1

theorem bounded_breeding_witness :
    Reachable (spy stub_problem) (spy_lib Unit (cyclic_lib Int Int)) [9, 4, 7] 1 (0, [])
      spied_initial ∧
    (∀ a b g0 cs g1, stub_problem.recombine a b g0 = (.ok cs, g1) → cs ≠ []) ∧
    spied_initial.population.length - spied_initial.elite_count ≤ 2 ∧
    iterate (spy stub_problem) (spy_lib Unit (cyclic_lib Int Int)) 2 spied_initial
      = .completed spied_next ∧
    ((∃ t ev, iterate (spy stub_problem) (spy_lib Unit (cyclic_lib Int Int)) 2 spied_initial
        = .completed t ∧
      t.generator.2 = spied_initial.generator.2 ++ ev ∧
      recombine_calls ev ≤ spied_initial.population.length - spied_initial.elite_count ∧
      draws ev = 4 * recombine_calls ev ∧
      (∀ c, 1 ≤ c →
        (∀ a b g0 cs g1, stub_problem.recombine a b g0 = (.ok cs, g1) → cs.length = c) →
        recombine_calls ev
          = (spied_initial.population.length - spied_initial.elite_count + c - 1) / c)) ∨
    (∃ e t ev, iterate (spy stub_problem) (spy_lib Unit (cyclic_lib Int Int)) 2 spied_initial
        = .raised e t ∧
      t.generator.2 = spied_initial.generator.2 ++ ev ∧
      recombine_calls ev ≤ spied_initial.population.length - spied_initial.elite_count ∧
      draws ev = 4 * recombine_calls ev)) :=
  have hreach : Reachable (spy stub_problem) (spy_lib Unit (cyclic_lib Int Int)) [9, 4, 7] 1
      (0, []) spied_initial := .constructed rfl
  have hne : ∀ (a b : Int) (g0 : Nat) (cs : List Int) (g1 : Nat),
      stub_problem.recombine a b g0 = (.ok cs, g1) → cs ≠ [] := by
    intro a b g0 cs g1 h
    simp only [stub_problem, Prod.mk.injEq, Except.ok.injEq] at h
    rw [← h.1]
    simp
  ⟨hreach, hne, by decide, rfl,
    bounded_breeding stub_problem (cyclic_lib Int Int) [9, 4, 7] 1 (0, []) spied_initial 2
      hreach hne (by decide)⟩

end claims

end ga




